import Mathlib

/-!
Verification of the SkyTemple main-window controller and the two excerpted
per-entry editor controllers (dungeon-interrupt list editor, monster-sprite
previewer/importer).  The Python sources are shallowly embedded: each GUI
handler becomes a pure Lean function on an explicit state record, fallible
library calls become `Option`/`Except` values, and the Gtk tree store becomes
a rose-tree of rows.  Theorems below settle the frozen claims about this code.
-/

namespace SkyTemple

/-! ## ROM project saving (`MainController._save`) -/

/-- A ROM project as visible to `MainController._save`:
`RomProject.get_current()` yields `Option RomProject`. -/
structure RomProject where
  filename : String
  hasModifications : Bool
deriving DecidableEq, Repr

/-- Python `os.path.basename`: the part of the path after the final slash. -/
def pathBasename (s : String) : String :=
  match (s.splitOn "/").getLast? with
  | some t => t
  | none => s

/-- The state touched by `MainController._save`. -/
structure SaveState where
  currentProject : Option RomProject
  afterSaveAction : Option Nat
  loadingDialogShown : Bool
  loadingDialogLabel : String
deriving DecidableEq, Repr

/-- Embedding of `MainController._save(force, after_save_action)`.
Returns the new state and whether `rom.save(self)` was invoked. -/
def mainSave (st : SaveState) (force : Bool) (action : Option Nat) : SaveState × Bool :=
  match st.currentProject with
  | none => (st, false)
  | some rom =>
    if rom.hasModifications || force then
      ({ st with
          afterSaveAction := action
          loadingDialogShown := true
          loadingDialogLabel := "Saving ROM \x22" ++ pathBasename rom.filename ++ "\x22..." },
        true)
    else (st, false)

/-- Claim C7: `_save` invokes the project's save (writing back to the ROM
container) iff a project is open and it has modifications or `force` is set;
otherwise no save is performed and the state is left unchanged. -/
theorem main_save_invoked_iff (st : SaveState) (force : Bool) (action : Option Nat) :
    ((mainSave st force action).2 = true ↔
      ∃ rom, st.currentProject = some rom ∧ (rom.hasModifications = true ∨ force = true))
    ∧ ((mainSave st force action).2 = false → (mainSave st force action).1 = st) := by
  match h : st.currentProject with
  | none =>
    constructor
    · constructor
      · intro hs; exact absurd hs (by simp [mainSave, h])
      · rintro ⟨rom, hrom, -⟩; cases hrom
    · intro _; simp [mainSave, h]
  | some rom =>
    by_cases hm : (rom.hasModifications || force) = true
    · refine ⟨⟨fun _ => ⟨rom, rfl, by simpa [Bool.or_eq_true] using hm⟩, fun _ => ?_⟩, fun hf => ?_⟩
      · simp [mainSave, h, hm]
      · exfalso; simp [mainSave, h, hm] at hf
    · refine ⟨⟨fun ht => ?_, ?_⟩, fun _ => ?_⟩
      · exfalso; simp [mainSave, h, hm] at ht
      · rintro ⟨rom', hrom', hmod⟩
        injection hrom' with he
        subst he
        exfalso
        apply hm
        rcases hmod with hh | hh <;> simp [hh]
      · simp [mainSave, h, hm]

/-- Witness for C7: on a state with no open project, `_save` leaves the state
unchanged. -/
theorem main_save_invoked_iff_witness :
    (mainSave (SaveState.mk none none false "") false none).1
      = SaveState.mk none none false "" :=
  (main_save_invoked_iff (SaveState.mk none none false "") false none).2 (by decide)

/-! ## Recent-files list (`MainController._update_recent_files`) -/

/-- The recent-files state: the in-memory list and the copy persisted in the
settings store by `settings.set_recent_files`. -/
structure RecentState where
  recentFiles : List String
  settingsRecentFiles : List String
deriving DecidableEq, Repr

/-- The `for rf in self.recent_files` loop of `_update_recent_files`:
appends `rf` to the accumulator when `rf != fn and rf not in new_recent_files`. -/
def dedupKeep (fn : String) (acc : List String) : List String → List String
  | [] => acc
  | rf :: rest =>
    dedupKeep fn (if rf ≠ fn ∧ rf ∉ acc then acc ++ [rf] else acc) rest

/-- The new list produced by `_update_recent_files`: deduplicated previous
entries without `fn`, with `fn` inserted at position 0. -/
def newRecentFiles (fn : String) (recent : List String) : List String :=
  fn :: dedupKeep fn [] recent

/-- Embedding of `MainController._update_recent_files(fn)`: stores the new
list in `self.recent_files` and persists it via `settings.set_recent_files`. -/
def updateRecentFiles (st : RecentState) (fn : String) : RecentState :=
  let nw := newRecentFiles fn st.recentFiles
  { recentFiles := nw, settingsRecentFiles := nw }

theorem mem_dedupKeep (fn x : String) :
    ∀ (l acc : List String), x ∈ dedupKeep fn acc l ↔ x ∈ acc ∨ (x ∈ l ∧ x ≠ fn) := by
  intro l
  induction l with
  | nil => intro acc; simp [dedupKeep]
  | cons rf rest ih =>
    intro acc
    simp only [dedupKeep]
    by_cases hc : rf ≠ fn ∧ rf ∉ acc
    · rw [if_pos hc, ih]
      constructor
      · rintro (hx | hx)
        · rcases List.mem_append.1 hx with hx' | hx'
          · exact Or.inl hx'
          · simp only [List.mem_singleton] at hx'
            subst hx'
            exact Or.inr ⟨List.mem_cons_self _ _, hc.1⟩
        · exact Or.inr ⟨List.mem_cons_of_mem _ hx.1, hx.2⟩
      · rintro (hx | ⟨hx, hne⟩)
        · exact Or.inl (List.mem_append.2 (Or.inl hx))
        · rcases List.mem_cons.1 hx with rfl | hx'
          · exact Or.inl (List.mem_append.2 (Or.inr (List.mem_singleton.2 rfl)))
          · exact Or.inr ⟨hx', hne⟩
    · rw [if_neg hc, ih]
      push_neg at hc
      constructor
      · rintro (hx | hx)
        · exact Or.inl hx
        · exact Or.inr ⟨List.mem_cons_of_mem _ hx.1, hx.2⟩
      · rintro (hx | ⟨hx, hne⟩)
        · exact Or.inl hx
        · rcases List.mem_cons.1 hx with rfl | hx'
          · exact Or.inl (hc hne)
          · exact Or.inr ⟨hx', hne⟩

theorem nodup_dedupKeep (fn : String) :
    ∀ (l acc : List String), acc.Nodup → fn ∉ acc →
      (dedupKeep fn acc l).Nodup ∧ fn ∉ dedupKeep fn acc l := by
  intro l
  induction l with
  | nil => intro acc h hf; exact ⟨h, hf⟩
  | cons rf rest ih =>
    intro acc h hf
    simp only [dedupKeep]
    by_cases hc : rf ≠ fn ∧ rf ∉ acc
    · rw [if_pos hc]
      refine ih _ ?_ ?_
      · simp [List.nodup_append, h, hc.2]
      · intro hmem
        rcases List.mem_append.1 hmem with h' | h'
        · exact hf h'
        · simp only [List.mem_singleton] at h'
          exact hc.1 h'.symm
    · rw [if_neg hc]; exact ih _ h hf

theorem sublist_dedupKeep (fn : String) :
    ∀ (l acc : List String), ∃ s, dedupKeep fn acc l = acc ++ s ∧ s.Sublist l := by
  intro l
  induction l with
  | nil => intro acc; exact ⟨[], by simp [dedupKeep]⟩
  | cons rf rest ih =>
    intro acc
    simp only [dedupKeep]
    by_cases hc : rf ≠ fn ∧ rf ∉ acc
    · rw [if_pos hc]
      obtain ⟨s, hs, hsub⟩ := ih (acc ++ [rf])
      exact ⟨rf :: s, by simpa using hs, List.Sublist.cons₂ _ hsub⟩
    · rw [if_neg hc]
      obtain ⟨s, hs, hsub⟩ := ih acc
      exact ⟨s, hs, List.Sublist.cons _ hsub⟩

/-- Claim C8: after `MainController._update_recent_files(fn)` the stored list
has `fn` first, has no duplicates, consists of exactly the previous entries
other than `fn` in their previous relative order, and the same list is
persisted to the settings store. -/
theorem update_recent_files_spec (st : RecentState) (fn : String) :
    ((updateRecentFiles st fn).recentFiles.head? = some fn)
    ∧ (updateRecentFiles st fn).recentFiles.Nodup
    ∧ (∃ s, (updateRecentFiles st fn).recentFiles = fn :: s
        ∧ s.Sublist st.recentFiles
        ∧ ∀ x, x ∈ s ↔ x ∈ st.recentFiles ∧ x ≠ fn)
    ∧ (updateRecentFiles st fn).settingsRecentFiles = (updateRecentFiles st fn).recentFiles := by
  obtain ⟨s, hs, hsub⟩ := sublist_dedupKeep fn st.recentFiles []
  simp only [List.nil_append] at hs
  obtain ⟨hnd, hfn⟩ := nodup_dedupKeep fn st.recentFiles [] List.nodup_nil (List.not_mem_nil fn)
  refine ⟨rfl, ?_, ⟨dedupKeep fn [] st.recentFiles, rfl, ?_, ?_⟩, rfl⟩
  · simp only [updateRecentFiles, newRecentFiles]
    exact List.nodup_cons.2 ⟨hfn, hnd⟩
  · rw [hs]; exact hsub
  · intro x
    rw [mem_dedupKeep]
    simp

/-! ## Sprite animation frame selection (`MonsterSpriteController._get_sprite_anim`) -/

/-- The tuple rendered by `_load_frames` for one animation frame:
`(cairo surface id, cx, cy, width, height)`. -/
structure RenderedFrame where
  surface : Nat
  cx : Nat
  cy : Nat
  width : Nat
  height : Nat
deriving DecidableEq, Repr

/-- The state touched by `_get_sprite_anim`: the frame/anim counters and the
`(duration, rendered frame)` list built by `_load_frames`. -/
structure AnimState where
  frameCounter : Nat
  animCounter : Nat
  renderedFrameInfo : List (Nat × RenderedFrame)
deriving DecidableEq, Repr

/-- Embedding of `MonsterSpriteController._get_sprite_anim`.  Indexing
`self._rendered_frame_info[self._anim_counter]` raises `IndexError` when out
of range, modelled by `none`. -/
def getSpriteAnim (st : AnimState) : Option (AnimState × RenderedFrame) :=
  match st.renderedFrameInfo.get? st.animCounter with
  | none => none
  | some current =>
    let fc := st.frameCounter + 1
    if fc > current.1 then
      let ac := st.animCounter + 1
      let ac' := if ac ≥ st.renderedFrameInfo.length then 0 else ac
      some ({ st with frameCounter := 0, animCounter := ac' }, current.2)
    else
      some ({ st with frameCounter := fc }, current.2)

/-- Claim C10: provided `_rendered_frame_info` is non-empty and the anim
counter is in range, `_get_sprite_anim` succeeds, returns the rendered-frame
tuple at the current (valid) index, leaves the frame list unchanged, advances
the index by one (wrapping to 0 past the end) exactly when the incremented
frame counter exceeds the current duration, and re-establishes
`0 ≤ _anim_counter < len(_rendered_frame_info)`. -/
theorem get_sprite_anim_index_invariant (st : AnimState)
    (hne : st.renderedFrameInfo ≠ [])
    (hlt : st.animCounter < st.renderedFrameInfo.length) :
    ∃ st' fr current,
      st.renderedFrameInfo.get? st.animCounter = some current
      ∧ getSpriteAnim st = some (st', fr)
      ∧ fr = current.2
      ∧ st'.renderedFrameInfo = st.renderedFrameInfo
      ∧ st'.animCounter < st'.renderedFrameInfo.length
      ∧ (st.frameCounter + 1 > current.1 →
          st'.animCounter =
            (if st.animCounter + 1 ≥ st.renderedFrameInfo.length then 0 else st.animCounter + 1))
      ∧ (¬ st.frameCounter + 1 > current.1 → st'.animCounter = st.animCounter) := by
  have hcur' : st.renderedFrameInfo.get? st.animCounter
      = some (st.renderedFrameInfo.get ⟨st.animCounter, hlt⟩) := List.get?_eq_get hlt
  set current := st.renderedFrameInfo.get ⟨st.animCounter, hlt⟩ with hcurdef
  by_cases hgt : st.frameCounter + 1 > current.1
  · have hac : (if st.animCounter + 1 ≥ st.renderedFrameInfo.length then 0 else st.animCounter + 1)
        < st.renderedFrameInfo.length := by
      by_cases hwrap : st.animCounter + 1 ≥ st.renderedFrameInfo.length
      · simpa [hwrap] using List.length_pos.2 hne
      · simpa [hwrap] using lt_of_not_ge hwrap
    refine ⟨AnimState.mk 0
        (if st.animCounter + 1 ≥ st.renderedFrameInfo.length then 0 else st.animCounter + 1)
        st.renderedFrameInfo,
      current.2, current, hcur', ?_, rfl, rfl, hac, fun _ => rfl, fun h => absurd hgt h⟩
    simp only [getSpriteAnim, hcur', if_pos hgt]
  · refine ⟨AnimState.mk (st.frameCounter + 1) st.animCounter st.renderedFrameInfo,
      current.2, current, hcur', ?_, rfl, rfl, hlt, fun h => absurd h hgt, fun _ => rfl⟩
    simp only [getSpriteAnim, hcur', if_neg hgt]

/-- Witness for C10: the invariant theorem applied to a concrete two-frame
state with the counter about to wrap. -/
theorem get_sprite_anim_index_invariant_witness :
    ∃ st' fr current,
      ([(0, RenderedFrame.mk 5 0 0 8 8), (1, RenderedFrame.mk 6 0 0 8 8)].get? 1 = some current)
      ∧ getSpriteAnim ⟨3, 1, [(0, RenderedFrame.mk 5 0 0 8 8), (1, RenderedFrame.mk 6 0 0 8 8)]⟩
          = some (st', fr)
      ∧ fr = current.2
      ∧ st'.renderedFrameInfo = [(0, RenderedFrame.mk 5 0 0 8 8), (1, RenderedFrame.mk 6 0 0 8 8)]
      ∧ st'.animCounter < st'.renderedFrameInfo.length
      ∧ (3 + 1 > current.1 →
          st'.animCounter = (if 1 + 1 ≥ [(0, RenderedFrame.mk 5 0 0 8 8), (1, RenderedFrame.mk 6 0 0 8 8)].length then 0 else 1 + 1))
      ∧ (¬ 3 + 1 > current.1 → st'.animCounter = 1) :=
  get_sprite_anim_index_invariant
    ⟨3, 1, [(0, RenderedFrame.mk 5 0 0 8 8), (1, RenderedFrame.mk 6 0 0 8 8)]⟩
    (by decide) (by decide)

/-! ## Fixed-framerate redraw timer (`MonsterSpriteController` drawing) -/

/-- The constant `FPS = 30` from `monster_sprite.py`. -/
def FPS : Nat := 30

/-- The sprite preview `DrawingArea` as seen by `_tick`: only whether
`get_parent()` is non-`None` matters. -/
structure DrawArea where
  hasParent : Bool
deriving DecidableEq, Repr

/-- The controller state touched by `start_sprite_drawing`,
`stop_sprite_drawing` and `_tick`. -/
structure SpriteDrawState where
  drawArea : Option DrawArea
  drawingIsActive : Bool
  frameCounter : Nat
  mainWindowHasFocus : Bool
  drawAreaDestroyed : Bool
deriving DecidableEq, Repr

/-- Embedding of `start_sprite_drawing`: sets the active flag and schedules
`_tick` with `GLib.timeout_add(int(1000 / FPS), ...)`; returns the interval
in milliseconds. -/
def startSpriteDrawing (st : SpriteDrawState) : SpriteDrawState × Nat :=
  ({ st with drawingIsActive := true }, 1000 / FPS)

/-- Embedding of `stop_sprite_drawing`. -/
def stopSpriteDrawing (st : SpriteDrawState) : SpriteDrawState :=
  { st with drawingIsActive := false }

/-- Embedding of `_tick`.  Returns `(new state, return value, queued a draw)`.
A `False` return value makes GLib remove the timeout source. -/
def spriteTick (st : SpriteDrawState) : SpriteDrawState × Bool × Bool :=
  match st.drawArea with
  | none => (st, false, false)
  | some da =>
    if da.hasParent = false then
      ({ st with drawAreaDestroyed := true }, false, false)
    else
      ({ st with frameCounter := st.frameCounter + 1 },
        st.drawingIsActive, st.mainWindowHasFocus)

/-- The events interleaving with timer callbacks on the GLib main loop. -/
inductive TimerEv where
  | fire
  | stopCall
  | detach
  | focus (b : Bool)
deriving DecidableEq, Repr

/-- A sprite-draw state together with whether the GLib timeout source is
still installed. -/
structure TimerState where
  st : SpriteDrawState
  sourceAlive : Bool
deriving DecidableEq, Repr

/-- One main-loop step: a timer fire runs `_tick` only while the source is
installed, and the source is removed as soon as `_tick` returns `False`.
The second component reports whether this step queued a preview redraw. -/
def timerStep (ts : TimerState) (ev : TimerEv) : TimerState × Bool :=
  match ev with
  | .stopCall => ({ ts with st := stopSpriteDrawing ts.st }, false)
  | .detach =>
    ({ ts with st := { ts.st with drawArea := ts.st.drawArea.map (fun _ => DrawArea.mk false) } },
      false)
  | .focus b => ({ ts with st := { ts.st with mainWindowHasFocus := b } }, false)
  | .fire =>
    if ts.sourceAlive then
      let r := spriteTick ts.st
      (TimerState.mk r.1 r.2.1, r.2.2)
    else (ts, false)

/-- Run a sequence of main-loop events; counts redraws queued by the timer. -/
def timerRun (ts : TimerState) : List TimerEv → TimerState × Nat
  | [] => (ts, 0)
  | ev :: evs =>
    let r := timerStep ts ev
    let rest := timerRun r.1 evs
    (rest.1, (if r.2 then 1 else 0) + rest.2)

theorem timerStep_dead (ts : TimerState) (ev : TimerEv) (h : ts.sourceAlive = false) :
    (timerStep ts ev).1.sourceAlive = false ∧ (timerStep ts ev).2 = false := by
  cases ev <;> simp [timerStep, h]

theorem timerRun_dead (evs : List TimerEv) :
    ∀ ts : TimerState, ts.sourceAlive = false →
      (timerRun ts evs).1.sourceAlive = false ∧ (timerRun ts evs).2 = 0 := by
  induction evs with
  | nil => intro ts h; exact ⟨h, rfl⟩
  | cons ev evs ih =>
    intro ts h
    obtain ⟨h1, h2⟩ := timerStep_dead ts ev h
    obtain ⟨h3, h4⟩ := ih _ h1
    exact ⟨h3, by simp [timerRun, h2, h4]⟩

/-- Claim C6: `start_sprite_drawing` schedules `_tick` at the fixed interval
`⌊1000 / 30⌋ = 33` ms; `_tick` returns `True` exactly when drawing is active
and the draw area still exists with a parent; it returns `False` after
`stop_sprite_drawing` or after the draw area was detached; and once the
timeout source is removed no timer step ever queues a redraw again. -/
theorem sprite_timer_spec :
    (∀ st : SpriteDrawState, (startSpriteDrawing st).2 = 33 ∧ 1000 / FPS = 33)
    ∧ (∀ st : SpriteDrawState, (spriteTick st).2.1 = true ↔
        st.drawingIsActive = true
        ∧ ∃ da, st.drawArea = some da ∧ da.hasParent = true)
    ∧ (∀ st : SpriteDrawState, (spriteTick (stopSpriteDrawing st)).2.1 = false)
    ∧ (∀ (st : SpriteDrawState) (da : DrawArea), st.drawArea = some da →
        da.hasParent = false → (spriteTick st).2.1 = false)
    ∧ (∀ (st : SpriteDrawState) (evs : List TimerEv),
        (timerRun (TimerState.mk st false) evs).2 = 0
        ∧ (timerRun (TimerState.mk st false) evs).1.sourceAlive = false) := by
  refine ⟨fun st => ⟨rfl, rfl⟩, ?_, ?_, ?_, ?_⟩
  · intro st
    match h : st.drawArea with
    | none => simp [spriteTick, h]
    | some da =>
      by_cases hp : da.hasParent = false
      · simp [spriteTick, h, hp]
      · rw [Bool.not_eq_false] at hp
        simp only [spriteTick, h]
        rw [if_neg (by simp [hp])]
        constructor
        · intro hact; exact ⟨hact, da, rfl, hp⟩
        · rintro ⟨hact, da', hda', hp'⟩; exact hact
  · intro st
    match h : st.drawArea with
    | none => simp [spriteTick, stopSpriteDrawing, h]
    | some da =>
      by_cases hp : da.hasParent = false
      · simp [spriteTick, stopSpriteDrawing, h, hp]
      · simp [spriteTick, stopSpriteDrawing, h, hp]
  · intro st da h hp
    simp [spriteTick, h, hp]
  · intro st evs
    obtain ⟨h1, h2⟩ := timerRun_dead evs (TimerState.mk st false) rfl
    exact ⟨h2, h1⟩

/-- Witness for C6: the full timer theorem applied at a concrete state — a
detached draw area makes `_tick` return `False`, and a dead source never
queues a redraw over a concrete event trace. -/
theorem sprite_timer_spec_witness :
    (spriteTick (SpriteDrawState.mk (some (DrawArea.mk false)) true 0 true false)).2.1 = false
    ∧ (timerRun
        (TimerState.mk (SpriteDrawState.mk (some (DrawArea.mk true)) true 0 true false) false)
        [TimerEv.fire, TimerEv.fire]).2 = 0 :=
  ⟨sprite_timer_spec.2.2.2.1
      (SpriteDrawState.mk (some (DrawArea.mk false)) true 0 true false)
      (DrawArea.mk false) rfl rfl,
    (sprite_timer_spec.2.2.2.2
      (SpriteDrawState.mk (some (DrawArea.mk true)) true 0 true false)
      [TimerEv.fire, TimerEv.fire]).1⟩

/-! ## Thread assertions (`main_thread` and the five asserting callbacks) -/

/-- The five `MainController` callbacks that `assert current_thread() == main_thread`. -/
inductive UiCallback where
  | fileOpened
  | fileOpenedError
  | mainItemListButtonPress
  | viewLoaded
  | viewLoadedError
deriving DecidableEq, Repr

/-- All five callbacks contain the thread assertion. -/
def assertsMainThread : UiCallback → Bool := fun _ => true

/-- One callback dispatch, tagged with the thread it runs on. -/
structure CallbackRun where
  callback : UiCallback
  thread : Nat
deriving DecidableEq, Repr

/-- The assertion `current_thread() == main_thread` evaluated inside a
callback, where `importThread` is the thread that imported `main.py`
(`main_thread = current_thread()` at module top level). -/
def threadAssertionPasses (importThread : Nat) (run : CallbackRun) : Bool :=
  !assertsMainThread run.callback || (run.thread == importThread)

/-- The single-threaded, event-loop-driven execution model: the module is
imported and every callback is dispatched on the one loop thread. -/
def singleThreadedLoop (loopThread : Nat) (cbs : List UiCallback) : List CallbackRun :=
  cbs.map (fun c => CallbackRun.mk c loopThread)

/-- Claim C5: under the single-threaded event-loop model every callback runs
on the thread that imported the module, so the thread assertions in
`on_file_opened`, `on_file_opened_error`, `on_main_item_list_button_press_event`,
`on_view_loaded` and `on_view_loaded_error` never fail. -/
theorem thread_assertions_never_fail (loopThread : Nat) (cbs : List UiCallback) :
    ∀ run ∈ singleThreadedLoop loopThread cbs, threadAssertionPasses loopThread run = true := by
  intro run hrun
  obtain ⟨c, _, rfl⟩ := List.mem_map.1 hrun
  simp [threadAssertionPasses, assertsMainThread]

/-- Witness for C5: a concrete trace of all five callbacks on thread 7. -/
theorem thread_assertions_never_fail_witness :
    threadAssertionPasses 7 (CallbackRun.mk UiCallback.viewLoaded 7) = true :=
  thread_assertions_never_fail 7
    [UiCallback.fileOpened, UiCallback.fileOpenedError, UiCallback.mainItemListButtonPress,
      UiCallback.viewLoaded, UiCallback.viewLoadedError]
    (CallbackRun.mk UiCallback.viewLoaded 7)
    (by decide)

/-! ## View switching (`MainController.load_view` / `on_view_loaded`) -/

/-- The `(module, controller class, item id)` triple recorded by `load_view`
(`_current_view_module`, `_current_view_controller_class`,
`_current_view_item_id`). -/
structure ViewSelection where
  module : Nat
  controllerClass : Nat
  itemId : Nat
deriving DecidableEq, Repr

/-- What the editor `Gtk.Stack` currently shows. -/
inductive StackChild where
  | loadingPage
  | errorPage
  | widgetChild (w : Nat)
deriving DecidableEq, Repr

/-- The `MainController` state relevant to view switching. -/
structure EditorState where
  currentSelection : ViewSelection
  loadedView : Option Nat
  currentView : Option Nat
  visibleChild : StackChild
  destroyedWidgets : List Nat
  treesLocked : Bool
deriving DecidableEq, Repr

/-- Embedding of the selection-recording part of `load_view`: locks the
trees, shows the loading page and records the current selection triple
before dispatching the asynchronous `load_view` task. -/
def loadViewSelect (st : EditorState) (sel : ViewSelection) : EditorState :=
  { st with currentSelection := sel, visibleChild := StackChild.loadingPage, treesLocked := true }

/-- A completed view-load delivered to `on_view_loaded`.  `getViewOk = false`
models `in_view.get_view()` raising. -/
structure LoadResult where
  module : Nat
  controllerClass : Nat
  itemId : Nat
  widget : Nat
  getViewOk : Bool
deriving DecidableEq, Repr

/-- Destroy the stack child named `es__loaded_view`, if present. -/
def destroyOldView (st : EditorState) : EditorState :=
  match st.loadedView with
  | some old => { st with loadedView := none, destroyedWidgets := old :: st.destroyedWidgets }
  | none => st

/-- Embedding of `MainController.on_view_loaded`. -/
def onViewLoaded (st : EditorState) (r : LoadResult) : EditorState :=
  if r.getViewOk = false then
    destroyOldView { st with visibleChild := StackChild.errorPage, treesLocked := false }
  else if ViewSelection.mk r.module r.controllerClass r.itemId ≠ st.currentSelection then
    { st with destroyedWidgets := r.widget :: st.destroyedWidgets }
  else
    let st1 := destroyOldView st
    { st1 with
        loadedView := some r.widget
        currentView := some r.widget
        visibleChild := StackChild.widgetChild r.widget
        treesLocked := false }

/-- Claim C1: after `load_view` records selection `sel`, a completed
view-load whose `(module, controller class, item id)` triple differs from
`sel` is discarded — its widget is destroyed, the editor stack's loaded view
and visible child are untouched — while a result matching `sel` is added to
the editor stack as the loaded view and shown. -/
theorem on_view_loaded_last_wins (st : EditorState) (sel : ViewSelection) (r : LoadResult)
    (hok : r.getViewOk = true) :
    (ViewSelection.mk r.module r.controllerClass r.itemId ≠ sel →
      (onViewLoaded (loadViewSelect st sel) r).loadedView = (loadViewSelect st sel).loadedView
      ∧ (onViewLoaded (loadViewSelect st sel) r).visibleChild
          = (loadViewSelect st sel).visibleChild
      ∧ (onViewLoaded (loadViewSelect st sel) r).currentView = (loadViewSelect st sel).currentView
      ∧ r.widget ∈ (onViewLoaded (loadViewSelect st sel) r).destroyedWidgets)
    ∧ (ViewSelection.mk r.module r.controllerClass r.itemId = sel →
      (onViewLoaded (loadViewSelect st sel) r).loadedView = some r.widget
      ∧ (onViewLoaded (loadViewSelect st sel) r).visibleChild
          = StackChild.widgetChild r.widget) := by
  have hsel : (loadViewSelect st sel).currentSelection = sel := rfl
  constructor
  · intro hne
    simp only [onViewLoaded, hok]
    rw [if_neg (by simp), if_pos (by rw [hsel]; exact hne)]
    exact ⟨rfl, rfl, rfl, List.mem_cons_self _ _⟩
  · intro heq
    simp only [onViewLoaded, hok]
    rw [if_neg (by simp), if_neg (by rw [hsel]; simpa using heq)]
    exact ⟨rfl, rfl⟩

/-- Witness for C1: a stale result (selection has moved on) is destroyed and
not presented, at a concrete state. -/
theorem on_view_loaded_last_wins_witness :
    (onViewLoaded
        (loadViewSelect
          (EditorState.mk (ViewSelection.mk 0 0 0) none none StackChild.errorPage [] false)
          (ViewSelection.mk 1 2 3))
        (LoadResult.mk 9 9 9 42 true)).loadedView
      = (loadViewSelect
          (EditorState.mk (ViewSelection.mk 0 0 0) none none StackChild.errorPage [] false)
          (ViewSelection.mk 1 2 3)).loadedView
    ∧ (onViewLoaded
        (loadViewSelect
          (EditorState.mk (ViewSelection.mk 0 0 0) none none StackChild.errorPage [] false)
          (ViewSelection.mk 1 2 3))
        (LoadResult.mk 9 9 9 42 true)).visibleChild
      = (loadViewSelect
          (EditorState.mk (ViewSelection.mk 0 0 0) none none StackChild.errorPage [] false)
          (ViewSelection.mk 1 2 3)).visibleChild
    ∧ (onViewLoaded
        (loadViewSelect
          (EditorState.mk (ViewSelection.mk 0 0 0) none none StackChild.errorPage [] false)
          (ViewSelection.mk 1 2 3))
        (LoadResult.mk 9 9 9 42 true)).currentView
      = (loadViewSelect
          (EditorState.mk (ViewSelection.mk 0 0 0) none none StackChild.errorPage [] false)
          (ViewSelection.mk 1 2 3)).currentView
    ∧ 42 ∈ (onViewLoaded
        (loadViewSelect
          (EditorState.mk (ViewSelection.mk 0 0 0) none none StackChild.errorPage [] false)
          (ViewSelection.mk 1 2 3))
        (LoadResult.mk 9 9 9 42 true)).destroyedWidgets :=
  (on_view_loaded_last_wins
      (EditorState.mk (ViewSelection.mk 0 0 0) none none StackChild.errorPage [] false)
      (ViewSelection.mk 1 2 3)
      (LoadResult.mk 9 9 9 42 true) rfl).1 (by decide)

/-! ## Dungeon-interrupt list rebuild (`DungeonInterruptController._build_list`) -/

/-- The conversion `u8_checked` from `range_typed_integers`: overflow error unless
`0 ≤ v ≤ 255`. -/
def u8Checked (v : Int) : Option Nat :=
  if 0 ≤ v ∧ v ≤ 255 then some v.toNat else none

/-- The conversion `u16_checked`: overflow error unless `0 ≤ v ≤ 65535`. -/
def u16Checked (v : Int) : Option Nat :=
  if 0 ≤ v ∧ v ≤ 65535 then some v.toNat else none

/-- The lookup `InterDEntryType(value)` of the external `skytemple_files` enum.  The six
check types (listed by this controller's help dialog: Always, Flag Not Set,
Flag Set, Scenario Equals, Scenario Below or Equal, Scenario Greater or
Equal) carry the values 0–5; other values raise `ValueError`. -/
def interDEntryTypeOfValue (v : Int) : Option Nat :=
  if 0 ≤ v ∧ v < 6 then some v.toNat else none

/-- One row of the `interrupt_store` list store, columns 0–7. -/
structure InterruptRow where
  floorVal : Int
  entTypeVal : Int
  gameVarIdVal : Int
  param1Val : Int
  param2Val : Int
  explanationText : String
  varNameText : String
  continueMusicVal : Bool
deriving DecidableEq, Repr

/-- An `InterDEntry` of the external library, as filled in by `_build_list`. -/
structure InterDEntry where
  floor : Nat
  entType : Nat
  gameVarId : Nat
  param1 : Nat
  param2 : Nat
  continueMusic : Bool
deriving DecidableEq, Repr

/-- The per-row body of the `_build_list` loop: checked conversions of
columns 0–4 and 7 into a fresh `InterDEntry`. -/
def convRow (v : InterruptRow) : Option InterDEntry := do
  let fl ← u8Checked v.floorVal
  let et ← interDEntryTypeOfValue v.entTypeVal
  let gv ← u16Checked v.gameVarIdVal
  let p1 ← u8Checked v.param1Val
  let p2 ← u8Checked v.param2Val
  pure (InterDEntry.mk fl et gv p1 p2 v.continueMusicVal)

/-- The `_build_list` loop over the store rows: returns the entries appended
before any conversion failure, and whether the loop completed. -/
def convertRows : List InterruptRow → List InterDEntry × Bool
  | [] => ([], true)
  | r :: rest =>
    match convRow r with
    | none => ([], false)
    | some e =>
      let p := convertRows rest
      (e :: p.1, p.2)

/-- The state touched by `_build_list`: the `inter_d` model's per-dungeon
lists and the module's modified flag. -/
structure InterDState where
  listDungeons : List (List InterDEntry)
  modified : Bool
deriving DecidableEq, Repr

/-- Embedding of `DungeonInterruptController._build_list` for the currently
selected dungeon index: replaces `inter_d.list_dungeons[dungeon]` with the
converted store rows and, if the loop completes, marks the module modified.
Returns the new state and whether the loop completed without an overflow. -/
def buildList (st : InterDState) (dungeon : Nat) (rows : List InterruptRow) :
    InterDState × Bool :=
  let p := convertRows rows
  (InterDState.mk (st.listDungeons.set dungeon p.1) (if p.2 then true else st.modified), p.2)

theorem convertRows_complete (rows : List InterruptRow) (hok : (convertRows rows).2 = true) :
    (convertRows rows).1.length = rows.length
    ∧ ∀ j, j < rows.length →
        ∃ r e, rows.get? j = some r ∧ (convertRows rows).1.get? j = some e ∧ convRow r = some e := by
  induction rows with
  | nil => exact ⟨rfl, fun j hj => absurd hj (by simp)⟩
  | cons r rest ih =>
    match hc : convRow r with
    | none => simp [convertRows, hc] at hok
    | some e =>
      have hok' : (convertRows rest).2 = true := by
        simpa [convertRows, hc] using hok
      obtain ⟨hlen, helem⟩ := ih hok'
      constructor
      · simp [convertRows, hc, hlen]
      · intro j hj
        match j with
        | 0 => exact ⟨r, e, rfl, by simp [convertRows, hc], hc⟩
        | j + 1 =>
          obtain ⟨r', e', h1, h2, h3⟩ := helem j (by simpa using hj)
          exact ⟨r', e', h1, by simpa [convertRows, hc] using h2, h3⟩

/-- Claim C9: `_build_list` replaces the interrupt entry list only for the
currently selected dungeon — every other dungeon index is unchanged — and,
when the conversion loop completes, the new list for that dungeon is exactly
the store rows converted in order (floor from column 0 as checked u8, entry
type from column 1, game variable id from column 2 as checked u16, params
from columns 3 and 4 as checked u8, continue_music from column 7), after
which the module is marked modified. -/
theorem build_list_frame (st : InterDState) (dungeon : Nat) (rows : List InterruptRow)
    (hd : dungeon < st.listDungeons.length)
    (hok : (convertRows rows).2 = true) :
    (buildList st dungeon rows).1.listDungeons.get? dungeon = some (convertRows rows).1
    ∧ (∀ i, i ≠ dungeon →
        (buildList st dungeon rows).1.listDungeons.get? i = st.listDungeons.get? i)
    ∧ (buildList st dungeon rows).1.modified = true
    ∧ (convertRows rows).1.length = rows.length
    ∧ (∀ j, j < rows.length →
        ∃ r e, rows.get? j = some r ∧ (convertRows rows).1.get? j = some e ∧ convRow r = some e) := by
  obtain ⟨hlen, helem⟩ := convertRows_complete rows hok
  refine ⟨?_, ?_, ?_, hlen, helem⟩
  · simp [buildList, List.getElem?_set_self', List.getElem?_eq_getElem hd]
  · intro i hi
    simp [buildList, List.getElem?_set_ne (Ne.symm hi)]
  · simp [buildList, hok]

/-- Witness for C9: rebuilding dungeon 1 of a concrete two-dungeon table from
one store row. -/
theorem build_list_frame_witness :
    (buildList (InterDState.mk [[InterDEntry.mk 9 0 0 0 0 false], []] false) 1
        [InterruptRow.mk 3 1 7 0 0 "" "" true]).1.listDungeons.get? 1
      = some (convertRows [InterruptRow.mk 3 1 7 0 0 "" "" true]).1
    ∧ (∀ i, i ≠ 1 →
        (buildList (InterDState.mk [[InterDEntry.mk 9 0 0 0 0 false], []] false) 1
            [InterruptRow.mk 3 1 7 0 0 "" "" true]).1.listDungeons.get? i
          = [[InterDEntry.mk 9 0 0 0 0 false], []].get? i)
    ∧ (buildList (InterDState.mk [[InterDEntry.mk 9 0 0 0 0 false], []] false) 1
        [InterruptRow.mk 3 1 7 0 0 "" "" true]).1.modified = true
    ∧ (convertRows [InterruptRow.mk 3 1 7 0 0 "" "" true]).1.length
        = [InterruptRow.mk 3 1 7 0 0 "" "" true].length
    ∧ (∀ j, j < [InterruptRow.mk 3 1 7 0 0 "" "" true].length →
        ∃ r e, [InterruptRow.mk 3 1 7 0 0 "" "" true].get? j = some r
          ∧ (convertRows [InterruptRow.mk 3 1 7 0 0 "" "" true]).1.get? j = some e
          ∧ convRow r = some e) :=
  build_list_frame (InterDState.mk [[InterDEntry.mk 9 0 0 0 0 false], []] false) 1
    [InterruptRow.mk 3 1 7 0 0 "" "" true] (by decide) (by decide)

/-! ## Error surfacing at the UI boundaries -/

/-- How an error raised by the external ROM library is surfaced. -/
inductive ErrorSurface where
  | modalDialog
  | editorErrorPage
deriving DecidableEq, Repr

/-- Modelled from the spec: `display_error` of `skytemple.core.error_handler`
(not in the excerpt) surfaces the passed exception as a modal error dialog. -/
def displayError (_exc : Nat) : ErrorSurface := ErrorSurface.modalDialog

/-- Run the body of a `try` block, given the index of the first failing
library call (if any): the calls before it are performed, everything after
it is skipped.  Returns the performed steps and whether an exception was
raised. -/
def runUntilFailure (steps : List α) (failAt : Option Nat) : List α × Bool :=
  match failAt with
  | none => (steps, false)
  | some k => if k < steps.length then (steps.take k, true) else (steps, false)

/-- The library/tree-loading calls inside the `try` block of
`on_file_opened`. -/
inductive OpenStep where
  | loadRomData
  | initPatchProperties
  | loadRomTreeItems
  | handleProjectChange
  | loadModuleTreeItems
  | finalizeTree
  | triggerProjectOpen
  | selectRootNode
deriving DecidableEq, Repr

/-- The steps of `on_file_opened`'s `try` block, in program order. -/
def openSteps : List OpenStep :=
  [OpenStep.loadRomData, OpenStep.initPatchProperties, OpenStep.loadRomTreeItems,
    OpenStep.handleProjectChange, OpenStep.loadModuleTreeItems, OpenStep.finalizeTree,
    OpenStep.triggerProjectOpen, OpenStep.selectRootNode]

/-- Embedding of `on_file_opened`'s exception handling: on a failing step the
`except` clause calls `on_file_opened_error` (which calls `display_error`)
and returns, so `load_view` is never reached.  Result: performed steps,
surfaced error, whether `load_view` on the root node was called. -/
def onFileOpenedRun (failAt : Option Nat) : List OpenStep × Option ErrorSurface × Bool :=
  let r := runUntilFailure openSteps failAt
  if r.2 then (r.1, some (displayError 0), false) else (r.1, none, true)

/-- Embedding of `on_file_saved_error`: hides the loading dialog and calls
`display_error`. -/
def onFileSavedErrorRun (exc : Nat) : ErrorSurface := displayError exc

/-- Embedding of `on_view_loaded_error`: fills the error text buffer, shows
the `es_error` page of the editor stack, and unlocks the trees.  No dialog
is opened. -/
def onViewLoadedErrorRun (st : EditorState) (_exc : Nat) : EditorState × ErrorSurface :=
  ({ st with visibleChild := StackChild.errorPage, treesLocked := false },
    ErrorSurface.editorErrorPage)

/-- The library calls of the `try` block of `on_export_clicked`
(spritesheet export). -/
inductive ExportStep where
  | getMonsterSprite
  | getGroundSprite
  | getAttackSprite
  | mergeWan
  | exportSheets
  | successDialog
deriving DecidableEq, Repr

/-- The steps of `on_export_clicked`'s `try` block, in program order. -/
def exportSheetSteps : List ExportStep :=
  [ExportStep.getMonsterSprite, ExportStep.getGroundSprite, ExportStep.getAttackSprite,
    ExportStep.mergeWan, ExportStep.exportSheets, ExportStep.successDialog]

/-- Embedding of `on_export_clicked`'s exception handling. -/
def onExportClickedRun (failAt : Option Nat) : List ExportStep × Option ErrorSurface :=
  let r := runUntilFailure exportSheetSteps failAt
  (r.1, if r.2 then some (displayError 0) else none)

/-- The library calls of the `try` block of `on_import_clicked`
(spritesheet import). -/
inductive ImportStep where
  | importSheets
  | splitWan
  | successDialog
  | saveMonsterSprite
  | saveGroundSprite
  | saveAttackSprite
  | markAsModified
  | reloadView
deriving DecidableEq, Repr

/-- The steps of `on_import_clicked`'s `try` block, in program order. -/
def importSheetSteps : List ImportStep :=
  [ImportStep.importSheets, ImportStep.splitWan, ImportStep.successDialog,
    ImportStep.saveMonsterSprite, ImportStep.saveGroundSprite, ImportStep.saveAttackSprite,
    ImportStep.markAsModified, ImportStep.reloadView]

/-- Embedding of `on_import_clicked`'s exception handling. -/
def onImportClickedRun (failAt : Option Nat) : List ImportStep × Option ErrorSurface :=
  let r := runUntilFailure importSheetSteps failAt
  (r.1, if r.2 then some (displayError 0) else none)

/-- Modelled from the spec: the single-sprite import and export operations
delegate to `SpriteModule.import_a_sprite` / `export_a_sprite`, which are not
in the excerpt; per the spec's error-handling design, a ROM-library error
there is caught and surfaced as a modal dialog and the operation aborts (the
handler's save / mark-modified / reload steps do not run). -/
def singleSpriteOpRun (failed : Bool) : Option ErrorSurface × Bool :=
  if failed then (some ErrorSurface.modalDialog, false) else (none, true)

/-- Counterexample to C4 as stated: an error during view loading is surfaced
by `on_view_loaded_error` as the `es_error` page of the editor stack, not as
a modal error dialog. -/
theorem view_load_error_not_modal :
    (onViewLoadedErrorRun
        (EditorState.mk (ViewSelection.mk 0 0 0) none none StackChild.loadingPage [] true)
        0).2 ≠ ErrorSurface.modalDialog := by
  decide

/-- Claim C4 (amended): every ROM-library error in the operations reachable
from this code is caught at its UI boundary and the operation aborts — the
remaining steps of the `try` block never run and there is no retry.  Open,
save, spritesheet export/import and (per the spec's description of the
missing module helpers) single-sprite import/export surface the error as a
modal error dialog; view-load errors are surfaced as the error page of the
editor stack instead. -/
theorem error_surfaces_amended :
    (∀ k, k < openSteps.length →
      onFileOpenedRun (some k) = (openSteps.take k, some ErrorSurface.modalDialog, false))
    ∧ (∀ exc, onFileSavedErrorRun exc = ErrorSurface.modalDialog)
    ∧ (∀ st exc, (onViewLoadedErrorRun st exc).2 = ErrorSurface.editorErrorPage
        ∧ (onViewLoadedErrorRun st exc).1.visibleChild = StackChild.errorPage
        ∧ (onViewLoadedErrorRun st exc).1.loadedView = st.loadedView)
    ∧ (∀ k, k < exportSheetSteps.length →
      onExportClickedRun (some k) = (exportSheetSteps.take k, some ErrorSurface.modalDialog))
    ∧ (∀ k, k < importSheetSteps.length →
      onImportClickedRun (some k) = (importSheetSteps.take k, some ErrorSurface.modalDialog))
    ∧ singleSpriteOpRun true = (some ErrorSurface.modalDialog, false) := by
  refine ⟨?_, fun _ => rfl, fun st exc => ⟨rfl, rfl, rfl⟩, ?_, ?_, rfl⟩
  · intro k hk
    simp [onFileOpenedRun, runUntilFailure, hk, displayError]
  · intro k hk
    simp [onExportClickedRun, runUntilFailure, hk, displayError]
  · intro k hk
    simp [onImportClickedRun, runUntilFailure, hk, displayError]

/-- Witness for the amended C4: a failure in the very first library call of
the spritesheet import (`import_sheets`) aborts with no steps performed and
a modal dialog shown. -/
theorem error_surfaces_amended_witness :
    onImportClickedRun (some 0) = ([], some ErrorSurface.modalDialog) :=
  error_surfaces_amended.2.2.2.2.1 0 (by decide)

/-! ## The item store and the search filter (`MainController._filter__*`)

The `Gtk.TreeStore` `item_store` is modelled as a forest of rose trees; of
each row only the label (column 1) and the visibility flag (column
`COL_VISIBLE`) matter to the filter code.  A row is addressed by its tree
path, the non-empty list of child indices from the top level. -/

/-- A row of `item_store` with its child rows. -/
inductive ITree where
  | node (label : String) (vis : Bool) (children : List ITree)
deriving Repr

/-- Column 1 of a row. -/
def ITree.label : ITree → String
  | .node l _ _ => l

/-- Column `COL_VISIBLE` of a row. -/
def ITree.vis : ITree → Bool
  | .node _ v _ => v

/-- The child rows of a row. -/
def ITree.children : ITree → List ITree
  | .node _ _ cs => cs

theorem ITree.eta (t : ITree) : ITree.node t.label t.vis t.children = t := by
  cases t; rfl

/-- Look up the row at a tree path (`[]` addresses no row). -/
def forestGet? : List ITree → List Nat → Option ITree
  | _, [] => none
  | ts, i :: p =>
    match ts[i]?, p with
    | none, _ => none
    | some t, [] => some t
    | some t, q :: qs => forestGet? t.children (q :: qs)

/-- The visibility flag at a path (`false` when the path addresses no row). -/
def visAt (ts : List ITree) (p : List Nat) : Bool :=
  match forestGet? ts p with
  | some t => t.vis
  | none => false

/-- The label at a path, when it addresses a row. -/
def labelAt? (ts : List ITree) (p : List Nat) : Option String :=
  (forestGet? ts p).map ITree.label

/-- Whether a path addresses a row of the store. -/
def validPath (ts : List ITree) (p : List Nat) : Prop :=
  (forestGet? ts p).isSome = true

instance (ts : List ITree) (p : List Nat) : Decidable (validPath ts p) := by
  unfold validPath; infer_instance

/-- Replace the `i`-th element of a list, if present. -/
def modifyNth (f : α → α) : Nat → List α → List α
  | _, [] => []
  | 0, a :: as => f a :: as
  | i + 1, a :: as => a :: modifyNth f i as

/-- Apply `f` to the row at a path inside one tree (`[]` addresses the
root). -/
def treeModify : List Nat → (ITree → ITree) → ITree → ITree
  | [], f, t => f t
  | q :: qs, f, t => ITree.node t.label t.vis (modifyNth (treeModify qs f) q t.children)

/-- Apply `f` to the row at a path, if it addresses one. -/
def forestModify (ts : List ITree) (p : List Nat) (f : ITree → ITree) : List ITree :=
  match p with
  | [] => ts
  | i :: p' => modifyNth (treeModify p' f) i ts

/-- The assignment `self._item_store[iter][COL_VISIBLE] = b` for the row at a path. -/
def setVisAt (ts : List ITree) (p : List Nat) (b : Bool) : List ITree :=
  forestModify ts p (fun t => ITree.node t.label b t.children)

/-- The `while iter:` loop of `_filter__make_path_visible`, running on fuel
(one unit per path component, which bounds the ancestor chain). -/
def makePathVisibleAux : Nat → List ITree → List Nat → List ITree
  | 0, ts, _ => ts
  | _ + 1, ts, [] => ts
  | n + 1, ts, i :: rest => makePathVisibleAux n (setVisAt ts (i :: rest) true) (i :: rest).dropLast

/-- Embedding of `_filter__make_path_visible`: the `while iter:` loop sets
the row and each of its ancestors visible (`iter_parent` drops the last
path component). -/
def makePathVisible (ts : List ITree) (p : List Nat) : List ITree :=
  makePathVisibleAux p.length ts p

mutual
/-- The per-child body of `_filter__make_subtree_visible`: an already
visible child is skipped (`continue`), an invisible one is set visible and
recursed into. -/
def markChild : ITree → ITree
  | ITree.node l v cs =>
    if v then ITree.node l v cs else ITree.node l true (markChildren cs)
/-- The `for i in range(model.iter_n_children(iter))` loop of
`_filter__make_subtree_visible`. -/
def markChildren : List ITree → List ITree
  | [] => []
  | c :: cs => markChild c :: markChildren cs
end

/-- Embedding of `_filter__make_subtree_visible` rooted at a path. -/
def makeSubtreeVisible (ts : List ITree) (p : List Nat) : List ITree :=
  forestModify ts p (fun t => ITree.node t.label t.vis (markChildren t.children))

mutual
/-- The paths visited below one row by `Gtk.TreeModel.foreach` (depth-first
pre-order). -/
def preorderT (p : List Nat) : ITree → List (List Nat)
  | ITree.node _ _ cs => p :: preorderF p 0 cs
/-- The paths visited in a forest starting at child index `i` of `p`. -/
def preorderF (p : List Nat) (i : Nat) : List ITree → List (List Nat)
  | [] => []
  | t :: ts => preorderT (p ++ [i]) t ++ preorderF p (i + 1) ts
end

/-- The visiting order of `item_store.foreach`. -/
def preorder (ts : List ITree) : List (List Nat) :=
  preorderF [] 0 ts

mutual
/-- The net effect of `_filter__reset_row` on one row. -/
def setAllVisT (b : Bool) : ITree → ITree
  | ITree.node l _ cs => ITree.node l b (setAllVisF b cs)
/-- The net effect of `item_store.foreach(self._filter__reset_row, b)`:
every row's visibility flag becomes `b`. -/
def setAllVisF (b : Bool) : List ITree → List ITree
  | [] => []
  | t :: ts => setAllVisT b t :: setAllVisF b ts
end

/-- Whether the char list `n` occurs at the start of `h`. -/
def leadsWith : List Char → List Char → Bool
  | [], _ => true
  | _ :: _, [] => false
  | a :: as, b :: bs => a == b && leadsWith as bs

/-- Whether the char list `n` occurs contiguously in `h`
(Python's `n in h` on strings). -/
def occursIn (n : List Char) : List Char → Bool
  | [] => leadsWith n []
  | b :: bs => leadsWith n (b :: bs) || occursIn n bs

/-- The test `search_query in text` after lowering both sides, as in
`_filter__show_matches`. -/
def rowMatches (q label : String) : Bool :=
  occursIn (q.data.map Char.toLower) (label.data.map Char.toLower)

/-- The body of `_filter__show_matches` for one visited row: on a label
match, propagate visibility up (`_filter__make_path_visible`) and down
(`_filter__make_subtree_visible`). -/
def showMatchesStep (q : String) (ts : List ITree) (p : List Nat) : List ITree :=
  match labelAt? ts p with
  | none => ts
  | some l =>
    if rowMatches q l then makeSubtreeVisible (makePathVisible ts p) p else ts

/-- The pass `item_store.foreach(self._filter__show_matches)`. -/
def showMatchesAll (q : String) (ts : List ITree) : List ITree :=
  (preorder ts).foldl (showMatchesStep q) ts

/-- Embedding of `_filter__refresh_results` (the parts that change the
store): empty search text makes every row visible; otherwise all rows are
reset to invisible and the match pass runs.  (`collapse_all` and the
`_filter__expand_all_visible` pass only touch the tree view, not the
store.) -/
def refreshResults (q : String) (ts : List ITree) : List ITree :=
  if q = "" then setAllVisF true ts else showMatchesAll q (setAllVisF false ts)

/-! ### Path and lookup lemmas -/

theorem get?_modifyNth_self (f : α → α) :
    ∀ (i : Nat) (l : List α), (modifyNth f i l)[i]? = l[i]?.map f := by
  intro i
  induction i with
  | zero => intro l; cases l <;> simp [modifyNth]
  | succ n ih =>
    intro l
    cases l with
    | nil => simp [modifyNth]
    | cons a as => simpa [modifyNth] using ih as

theorem get?_modifyNth_ne (f : α → α) :
    ∀ (i j : Nat) (l : List α), i ≠ j → (modifyNth f i l)[j]? = l[j]? := by
  intro i
  induction i with
  | zero =>
    intro j l h
    cases l <;> cases j <;> simp_all [modifyNth]
  | succ n ih =>
    intro j l h
    cases l with
    | nil => simp [modifyNth]
    | cons a as =>
      cases j with
      | zero => simp [modifyNth]
      | succ m => simpa [modifyNth] using ih m as (fun hh => h (by rw [hh]))

theorem forestGet?_single (ts : List ITree) (i : Nat) : forestGet? ts [i] = ts[i]? := by
  cases h : ts[i]? <;> simp [forestGet?, h]

theorem forestGet?_deep_none {ts : List ITree} {i : Nat} (h : ts[i]? = none)
    (p : List Nat) : forestGet? ts (i :: p) = none := by
  cases p <;> simp [forestGet?, h]

theorem forestGet?_deep_some {ts : List ITree} {i : Nat} {t : ITree} (h : ts[i]? = some t)
    {p : List Nat} (hp : p ≠ []) : forestGet? ts (i :: p) = forestGet? t.children p := by
  match p with
  | q :: qs => simp [forestGet?, h]

theorem forestGet?_append :
    ∀ (p : List Nat) (ts : List ITree) (t : ITree) (s : List Nat),
      forestGet? ts p = some t → s ≠ [] →
      forestGet? ts (p ++ s) = forestGet? t.children s := by
  intro p
  induction p with
  | nil => intro ts t s h; exact absurd h (by simp [forestGet?])
  | cons i p' ih =>
    intro ts t s h hs
    cases hgi : ts[i]? with
    | none => rw [forestGet?_deep_none hgi] at h; cases h
    | some u =>
      match p' with
      | [] =>
        rw [forestGet?_single, hgi] at h
        injection h with h
        subst h
        exact forestGet?_deep_some hgi hs
      | q :: qs =>
        rw [forestGet?_deep_some hgi (by simp)] at h
        rw [List.cons_append, forestGet?_deep_some hgi (by simp)]
        exact ih u.children t s h hs

theorem validPath_of_append :
    ∀ (a : List Nat) (ts : List ITree) (s : List Nat),
      validPath ts (a ++ s) → a ≠ [] → validPath ts a := by
  intro a
  induction a with
  | nil => intro ts s _ h; exact absurd rfl h
  | cons i a' ih =>
    intro ts s h _
    cases hgi : ts[i]? with
    | none =>
      exfalso
      rw [validPath, List.cons_append, forestGet?_deep_none hgi] at h
      cases h
    | some u =>
      match ha' : a' with
      | [] => rw [validPath, forestGet?_single, hgi]; rfl
      | q :: qs =>
        rw [validPath, List.cons_append, forestGet?_deep_some hgi (by simp)] at h
        rw [validPath, forestGet?_deep_some hgi (by simp)]
        exact ih u.children s h (by simp)

theorem forestGet?_forestModify_self (f : ITree → ITree) :
    ∀ (p : List Nat) (ts : List ITree),
      forestGet? (forestModify ts p f) p = (forestGet? ts p).map f := by
  intro p
  induction p with
  | nil => intro ts; simp [forestModify, forestGet?]
  | cons i p' ih =>
    intro ts
    rw [show forestModify ts (i :: p') f = modifyNth (treeModify p' f) i ts from rfl]
    cases hgi : ts[i]? with
    | none =>
      have hm : (modifyNth (treeModify p' f) i ts)[i]? = none := by
        rw [get?_modifyNth_self, hgi]; rfl
      rw [forestGet?_deep_none hm, forestGet?_deep_none hgi]; rfl
    | some t =>
      have hm : (modifyNth (treeModify p' f) i ts)[i]? = some (treeModify p' f t) := by
        rw [get?_modifyNth_self, hgi]; rfl
      match p' with
      | [] =>
        rw [forestGet?_single, hm, forestGet?_single, hgi]
        rfl
      | q :: qs =>
        rw [forestGet?_deep_some hm (by simp), forestGet?_deep_some hgi (by simp)]
        rw [show treeModify (q :: qs) f t
            = ITree.node t.label t.vis (modifyNth (treeModify qs f) q t.children) from rfl]
        rw [show (ITree.node t.label t.vis (modifyNth (treeModify qs f) q t.children)).children
            = forestModify t.children (q :: qs) f from rfl]
        exact ih t.children

theorem offpath_vis_label (f : ITree → ITree) :
    ∀ (p : List Nat) (ts : List ITree) (r : List Nat),
      (∀ s, r ≠ p ++ s) →
      visAt (forestModify ts p f) r = visAt ts r
      ∧ labelAt? (forestModify ts p f) r = labelAt? ts r := by
  intro p
  induction p with
  | nil => intro ts r h; exact absurd (by simp) (h r)
  | cons i p' ih =>
    intro ts r h
    rw [show forestModify ts (i :: p') f = modifyNth (treeModify p' f) i ts from rfl]
    cases r with
    | nil => exact ⟨by simp [visAt, forestGet?], by simp [labelAt?, forestGet?]⟩
    | cons j r' =>
      by_cases hij : i = j
      · subst hij
        match p' with
        | [] => exact absurd rfl (h r')
        | q :: qs =>
          cases hgi : ts[i]? with
          | none =>
            have hm : (modifyNth (treeModify (q :: qs) f) i ts)[i]? = none := by
              rw [get?_modifyNth_self, hgi]; rfl
            rw [visAt, labelAt?, forestGet?_deep_none hm, visAt, labelAt?,
              forestGet?_deep_none hgi]
            exact ⟨rfl, rfl⟩
          | some t =>
            have hm : (modifyNth (treeModify (q :: qs) f) i ts)[i]?
                = some (treeModify (q :: qs) f t) := by
              rw [get?_modifyNth_self, hgi]; rfl
            match r' with
            | [] =>
              rw [visAt, labelAt?, forestGet?_single, hm, visAt, labelAt?,
                forestGet?_single, hgi]
              exact ⟨rfl, rfl⟩
            | w :: ws =>
              rw [visAt, labelAt?, forestGet?_deep_some hm (by simp), visAt, labelAt?,
                forestGet?_deep_some hgi (by simp)]
              have hchild : (treeModify (q :: qs) f t).children
                  = forestModify t.children (q :: qs) f := rfl
              rw [hchild]
              have h' : ∀ s, (w :: ws) ≠ (q :: qs) ++ s := by
                intro s hscontra
                exact h s (by rw [List.cons_append, hscontra])
              exact ih t.children (w :: ws) h'
      · have hg : (modifyNth (treeModify p' f) i ts)[j]? = ts[j]? :=
          get?_modifyNth_ne _ i j ts hij
        have : forestGet? (modifyNth (treeModify p' f) i ts) (j :: r') = forestGet? ts (j :: r') := by
          cases hgj : ts[j]? with
          | none => rw [forestGet?_deep_none (hg.trans hgj), forestGet?_deep_none hgj]
          | some u =>
            match r' with
            | [] => rw [forestGet?_single, forestGet?_single, hg]
            | w :: ws =>
              rw [forestGet?_deep_some (hg.trans hgj) (by simp),
                forestGet?_deep_some hgj (by simp)]
        exact ⟨by rw [visAt, this, visAt], by rw [labelAt?, this, labelAt?]⟩

theorem modifyNth_oob (f : α → α) :
    ∀ (i : Nat) (l : List α), l[i]? = none → modifyNth f i l = l := by
  intro i
  induction i with
  | zero => intro l h; cases l <;> simp_all [modifyNth]
  | succ n ih =>
    intro l h
    cases l with
    | nil => rfl
    | cons a as => simp_all [modifyNth, ih as]

theorem modifyNth_fix (f : α → α) :
    ∀ (i : Nat) (l : List α) (a : α), l[i]? = some a → f a = a → modifyNth f i l = l := by
  intro i
  induction i with
  | zero => intro l a h hf; cases l <;> simp_all [modifyNth]
  | succ n ih =>
    intro l a h hf
    cases l with
    | nil => rfl
    | cons b bs => simp_all [modifyNth, ih bs a]

theorem forestModify_invalid (f : ITree → ITree) :
    ∀ (p : List Nat) (ts : List ITree), forestGet? ts p = none → forestModify ts p f = ts := by
  intro p
  induction p with
  | nil => intro ts _; rfl
  | cons i p' ih =>
    intro ts h
    rw [show forestModify ts (i :: p') f = modifyNth (treeModify p' f) i ts from rfl]
    cases hgi : ts[i]? with
    | none => exact modifyNth_oob _ i ts hgi
    | some t =>
      match p' with
      | [] => rw [forestGet?_single, hgi] at h; cases h
      | q :: qs =>
        rw [forestGet?_deep_some hgi (by simp)] at h
        refine modifyNth_fix _ i ts t hgi ?_
        rw [show treeModify (q :: qs) f t
            = ITree.node t.label t.vis (modifyNth (treeModify qs f) q t.children) from rfl]
        rw [show modifyNth (treeModify qs f) q t.children
            = forestModify t.children (q :: qs) f from rfl]
        rw [ih t.children h, ITree.eta]

theorem labelAt?_isSome (ts : List ITree) (p : List Nat) :
    (labelAt? ts p).isSome = (forestGet? ts p).isSome := by
  rw [labelAt?]; cases forestGet? ts p <;> rfl

/-! ### `setVisAt` characterization -/

theorem forestGet?_setVisAt_self {ts : List ITree} {p : List Nat} {t : ITree}
    (h : forestGet? ts p = some t) (b : Bool) :
    forestGet? (setVisAt ts p b) p = some (ITree.node t.label b t.children) := by
  rw [setVisAt, forestGet?_forestModify_self, h]; rfl

theorem forestGet?_setVisAt_below {ts : List ITree} {p : List Nat} {t : ITree}
    (h : forestGet? ts p = some t) (b : Bool) {s : List Nat} (hs : s ≠ []) :
    forestGet? (setVisAt ts p b) (p ++ s) = forestGet? ts (p ++ s) := by
  have h1 : forestGet? (setVisAt ts p b) (p ++ s)
      = forestGet? (ITree.node t.label b t.children).children s :=
    forestGet?_append p _ _ s (forestGet?_setVisAt_self h b) hs
  rw [h1, show (ITree.node t.label b t.children).children = t.children from rfl,
    forestGet?_append p ts t s h hs]

theorem visAt_setVisAt (ts : List ITree) (p : List Nat) (b : Bool)
    (hvalid : validPath ts p) (r : List Nat) :
    visAt (setVisAt ts p b) r = if r = p then b else visAt ts r := by
  obtain ⟨t, ht⟩ : ∃ t, forestGet? ts p = some t := by
    rw [validPath] at hvalid
    cases h : forestGet? ts p
    · rw [h] at hvalid; cases hvalid
    · exact ⟨_, rfl⟩
  by_cases hrp : r = p
  · subst hrp
    rw [if_pos rfl, visAt, forestGet?_setVisAt_self ht]; rfl
  · rw [if_neg hrp]
    by_cases hext : ∃ s, r = p ++ s
    · obtain ⟨s, rfl⟩ := hext
      have hs : s ≠ [] := by rintro rfl; exact hrp (by simp)
      rw [visAt, forestGet?_setVisAt_below ht b hs, visAt]
    · exact (offpath_vis_label _ p ts r (fun s hcon => hext ⟨s, hcon⟩)).1

theorem labelAt?_setVisAt (ts : List ITree) (p : List Nat) (b : Bool) (r : List Nat) :
    labelAt? (setVisAt ts p b) r = labelAt? ts r := by
  cases hvp : forestGet? ts p with
  | none => rw [setVisAt, forestModify_invalid _ p ts hvp]
  | some t =>
    by_cases hrp : r = p
    · subst hrp
      rw [labelAt?, forestGet?_setVisAt_self hvp, labelAt?, hvp]; rfl
    · by_cases hext : ∃ s, r = p ++ s
      · obtain ⟨s, rfl⟩ := hext
        have hs : s ≠ [] := by rintro rfl; exact hrp (by simp)
        rw [labelAt?, forestGet?_setVisAt_below hvp b hs, labelAt?]
      · exact (offpath_vis_label _ p ts r (fun s hcon => hext ⟨s, hcon⟩)).2

/-! ### `setAllVis` characterization -/

theorem setAllVisF_eq_map (b : Bool) :
    ∀ (ts : List ITree), setAllVisF b ts = ts.map (setAllVisT b) := by
  intro ts
  induction ts with
  | nil => rfl
  | cons t ts ih => rw [setAllVisF, ih]; rfl

theorem setAllVisT_parts (b : Bool) (t : ITree) :
    (setAllVisT b t).label = t.label ∧ (setAllVisT b t).vis = b
    ∧ (setAllVisT b t).children = setAllVisF b t.children := by
  cases t; exact ⟨rfl, rfl, rfl⟩

theorem forestGet?_setAllVisF (b : Bool) :
    ∀ (r : List Nat) (ts : List ITree),
      forestGet? (setAllVisF b ts) r = (forestGet? ts r).map (setAllVisT b) := by
  intro r
  induction r with
  | nil => intro ts; rfl
  | cons i r' ih =>
    intro ts
    have hg : (setAllVisF b ts)[i]? = ts[i]?.map (setAllVisT b) := by
      rw [setAllVisF_eq_map, List.getElem?_map]
    cases hgi : ts[i]? with
    | none =>
      rw [forestGet?_deep_none (by rw [hg, hgi]; rfl), forestGet?_deep_none hgi]; rfl
    | some t =>
      match r' with
      | [] =>
        rw [forestGet?_single, forestGet?_single, hg, hgi]
      | w :: ws =>
        rw [forestGet?_deep_some (show (setAllVisF b ts)[i]? = some (setAllVisT b t) by
            rw [hg, hgi]; rfl) (by simp),
          forestGet?_deep_some hgi (by simp), (setAllVisT_parts b t).2.2]
        exact ih t.children

theorem visAt_setAllVisF (b : Bool) (ts : List ITree) (r : List Nat) :
    visAt (setAllVisF b ts) r = if validPath ts r then b else false := by
  rw [visAt, forestGet?_setAllVisF]
  cases h : forestGet? ts r with
  | none => rw [if_neg (by rw [validPath, h]; simp)]; rfl
  | some t => rw [if_pos (by rw [validPath, h]; rfl)]; exact (setAllVisT_parts b t).2.1

theorem labelAt?_setAllVisF (b : Bool) (ts : List ITree) (r : List Nat) :
    labelAt? (setAllVisF b ts) r = labelAt? ts r := by
  rw [labelAt?, forestGet?_setAllVisF, labelAt?]
  cases forestGet? ts r with
  | none => rfl
  | some t =>
    show some (setAllVisT b t).label = Option.map ITree.label (some t)
    rw [(setAllVisT_parts b t).1]
    rfl

theorem validPath_setAllVisF (b : Bool) (ts : List ITree) (r : List Nat) :
    validPath (setAllVisF b ts) r ↔ validPath ts r := by
  rw [validPath, validPath, forestGet?_setAllVisF]
  cases forestGet? ts r <;> simp

/-! ### `markChildren` characterization -/

theorem markChildren_eq_map :
    ∀ (cs : List ITree), markChildren cs = cs.map markChild := by
  intro cs
  induction cs with
  | nil => rfl
  | cons c cs ih => rw [markChildren, ih]; rfl

theorem markChild_parts (c : ITree) :
    (markChild c).label = c.label ∧ (markChild c).vis = true
    ∧ (markChild c).children = (if c.vis then c.children else markChildren c.children) := by
  cases c with
  | node l v cs =>
    show (if v then ITree.node l v cs else ITree.node l true (markChildren cs)).label = l ∧ _
    cases v
    · exact ⟨rfl, rfl, rfl⟩
    · exact ⟨rfl, rfl, rfl⟩

theorem label_markChildren :
    ∀ (r : List Nat) (cs : List ITree), labelAt? (markChildren cs) r = labelAt? cs r := by
  intro r
  induction r with
  | nil => intro cs; rfl
  | cons i r' ih =>
    intro cs
    have hg : (markChildren cs)[i]? = cs[i]?.map markChild := by
      rw [markChildren_eq_map, List.getElem?_map]
    cases hgi : cs[i]? with
    | none =>
      rw [labelAt?, forestGet?_deep_none (by rw [hg, hgi]; rfl), labelAt?,
        forestGet?_deep_none hgi]
    | some c =>
      have hgm : (markChildren cs)[i]? = some (markChild c) := by rw [hg, hgi]; rfl
      match r' with
      | [] =>
        rw [labelAt?, forestGet?_single, hgm, labelAt?, forestGet?_single, hgi]
        show some (markChild c).label = some c.label
        rw [(markChild_parts c).1]
      | w :: ws =>
        rw [labelAt?, forestGet?_deep_some hgm (by simp), labelAt?,
          forestGet?_deep_some hgi (by simp), (markChild_parts c).2.2]
        by_cases hv : c.vis
        · rw [if_pos hv]
        · rw [if_neg hv]
          exact ih c.children

theorem validPath_markChildren (cs : List ITree) (r : List Nat) :
    validPath (markChildren cs) r ↔ validPath cs r := by
  rw [validPath, validPath, ← labelAt?_isSome, ← labelAt?_isSome, label_markChildren]

theorem visAt_eq_of_get {ts : List ITree} {p : List Nat} {t : ITree}
    (h : forestGet? ts p = some t) : visAt ts p = t.vis := by
  rw [visAt, h]

theorem visAt_eq_false_of_none {ts : List ITree} {p : List Nat}
    (h : forestGet? ts p = none) : visAt ts p = false := by
  rw [visAt, h]

theorem visAt_deep {ts : List ITree} {i : Nat} {t : ITree} (h : ts[i]? = some t)
    {p : List Nat} (hp : p ≠ []) : visAt ts (i :: p) = visAt t.children p := by
  rw [visAt, forestGet?_deep_some h hp, visAt]

theorem visAt_single {ts : List ITree} {i : Nat} {t : ITree} (h : ts[i]? = some t) :
    visAt ts [i] = t.vis := visAt_eq_of_get ((forestGet?_single ts i).trans (by rw [h]))

theorem validPath_deep {ts : List ITree} {i : Nat} {t : ITree} (h : ts[i]? = some t)
    {p : List Nat} (hp : p ≠ []) : validPath ts (i :: p) ↔ validPath t.children p := by
  rw [validPath, forestGet?_deep_some h hp, validPath]

/-- The skip-aware effect of `_filter__make_subtree_visible`'s child loop:
a row of the marked forest is visible iff it already was, or it is a row
whose strict ancestors within this forest were all invisible (the recursion
reaches exactly those rows; an already visible ancestor makes the loop
`continue` without descending). -/
theorem visAt_markChildren :
    ∀ (r : List Nat) (cs : List ITree),
      visAt (markChildren cs) r = true ↔
        (visAt cs r = true ∨
          (validPath cs r
            ∧ ∀ a, a ≠ [] → a ≠ r → (∃ w, a ++ w = r) → visAt cs a = false)) := by
  intro r
  induction r with
  | nil =>
    intro cs
    simp [visAt, forestGet?, validPath]
  | cons i r' ih =>
    intro cs
    have hg : (markChildren cs)[i]? = cs[i]?.map markChild := by
      rw [markChildren_eq_map, List.getElem?_map]
    cases hgi : cs[i]? with
    | none =>
      rw [visAt, forestGet?_deep_none (by rw [hg, hgi]; rfl)]
      rw [show visAt cs (i :: r') = false by rw [visAt, forestGet?_deep_none hgi]]
      rw [show validPath cs (i :: r') ↔ False by
        rw [validPath, forestGet?_deep_none hgi]; simp]
      simp
    | some c =>
      have hgm : (markChildren cs)[i]? = some (markChild c) := by rw [hg, hgi]; rfl
      match r' with
      | [] =>
        rw [visAt_single hgm]
        rw [show (markChild c).vis = true from (markChild_parts c).2.1]
        rw [show validPath cs [i] ↔ True by rw [validPath, forestGet?_single, hgi]; simp]
        constructor
        · intro _
          refine Or.inr ⟨trivial, ?_⟩
          intro a ha har hex
          obtain ⟨w, hw⟩ := hex
          exfalso
          match a, hw with
          | [], hw => exact ha rfl
          | x :: as, hw =>
            have hx : x = i := by injection hw
            have has : as ++ w = [] := by injection hw with _ h2
            have has' : as = [] := by
              cases as with
              | nil => rfl
              | cons _ _ => simp at has
            subst hx
            subst has'
            exact har rfl
        · intro _; rfl
      | w0 :: ws =>
        rw [visAt_deep hgm (by simp), (markChild_parts c).2.2]
        have hvis_r : visAt cs (i :: w0 :: ws) = visAt c.children (w0 :: ws) :=
          visAt_deep hgi (by simp)
        have hvalid_r : validPath cs (i :: w0 :: ws) ↔ validPath c.children (w0 :: ws) :=
          validPath_deep hgi (by simp)
        have hvis_i : visAt cs [i] = c.vis := visAt_single hgi
        by_cases hv : c.vis = true
        · rw [if_pos hv]
          rw [show visAt c.children (w0 :: ws)
              = visAt cs (i :: w0 :: ws) from hvis_r.symm]
          constructor
          · exact Or.inl
          · rintro (h | ⟨hval, hchain⟩)
            · exact h
            · exfalso
              have := hchain [i] (by simp) (by simp) ⟨w0 :: ws, rfl⟩
              rw [hvis_i] at this
              rw [this] at hv
              cases hv
        · rw [if_neg hv]
          rw [ih c.children, hvis_r, hvalid_r]
          constructor
          · rintro (h | ⟨hval, hchain⟩)
            · exact Or.inl h
            · refine Or.inr ⟨hval, ?_⟩
              intro a ha har hex
              obtain ⟨w, hw⟩ := hex
              match a, hw with
              | [], _ => exact absurd rfl ha
              | x :: a', hw =>
                have hx : x = i := by injection hw
                subst hx
                have hw' : a' ++ w = w0 :: ws := by injection hw with _ h2
                match a' with
                | [] =>
                  rw [hvis_i]
                  cases hcv : c.vis
                  · rfl
                  · exact absurd hcv hv
                | y :: a'' =>
                  rw [visAt_deep hgi (by simp)]
                  refine hchain (y :: a'') (by simp) ?_ ⟨w, hw'⟩
                  intro hcon
                  exact har (by rw [hcon])
          · rintro (h | ⟨hval, hchain⟩)
            · exact Or.inl h
            · refine Or.inr ⟨hval, ?_⟩
              intro a' ha' har' hex
              obtain ⟨w, hw⟩ := hex
              have hmain := hchain (i :: a') (by simp) (by
                  intro hcon
                  injection hcon with _ h2
                  exact har' h2) ⟨w, by rw [List.cons_append, hw]⟩
              rw [show visAt cs (i :: a') = visAt c.children a' by
                match a', ha' with
                | y :: a'', _ => exact visAt_deep hgi (by simp)] at hmain
              exact hmain

/-! ### `makeSubtreeVisible` characterization -/

theorem makeSubtreeVisible_invalid {ts : List ITree} {p : List Nat}
    (h : forestGet? ts p = none) : makeSubtreeVisible ts p = ts :=
  forestModify_invalid _ p ts h

theorem forestGet?_makeSubtreeVisible_self {ts : List ITree} {p : List Nat} {t : ITree}
    (h : forestGet? ts p = some t) :
    forestGet? (makeSubtreeVisible ts p) p
      = some (ITree.node t.label t.vis (markChildren t.children)) := by
  rw [makeSubtreeVisible, forestGet?_forestModify_self, h]; rfl

theorem forestGet?_makeSubtreeVisible_below {ts : List ITree} {p : List Nat} {t : ITree}
    (h : forestGet? ts p = some t) {s : List Nat} (hs : s ≠ []) :
    forestGet? (makeSubtreeVisible ts p) (p ++ s) = forestGet? (markChildren t.children) s := by
  have h1 := forestGet?_append p _ _ s (forestGet?_makeSubtreeVisible_self h) hs
  rw [h1]; rfl

theorem visAt_makeSubtreeVisible_below {ts : List ITree} {p : List Nat} {t : ITree}
    (h : forestGet? ts p = some t) {s : List Nat} (hs : s ≠ []) :
    (visAt (makeSubtreeVisible ts p) (p ++ s) = true ↔
      (visAt ts (p ++ s) = true ∨
        (validPath ts (p ++ s)
          ∧ ∀ a, a ≠ [] → a ≠ s → (∃ w, a ++ w = s) → visAt ts (p ++ a) = false))) := by
  have hv : visAt (makeSubtreeVisible ts p) (p ++ s) = visAt (markChildren t.children) s := by
    rw [visAt, forestGet?_makeSubtreeVisible_below h hs, visAt]
  rw [hv, visAt_markChildren s t.children]
  have e1 : visAt t.children s = visAt ts (p ++ s) := by
    rw [visAt, ← forestGet?_append p ts t s h hs, visAt]
  have e2 : validPath t.children s ↔ validPath ts (p ++ s) := by
    rw [validPath, ← forestGet?_append p ts t s h hs, validPath]
  rw [e1, e2]
  constructor
  · rintro (hx | ⟨hval, hchain⟩)
    · exact Or.inl hx
    · refine Or.inr ⟨hval, ?_⟩
      intro a ha has hex
      rw [show visAt ts (p ++ a) = visAt t.children a by
        rw [visAt, forestGet?_append p ts t a h ha, visAt]]
      exact hchain a ha has hex
  · rintro (hx | ⟨hval, hchain⟩)
    · exact Or.inl hx
    · refine Or.inr ⟨hval, ?_⟩
      intro a ha has hex
      rw [show visAt t.children a = visAt ts (p ++ a) by
        rw [visAt, ← forestGet?_append p ts t a h ha, visAt]]
      exact hchain a ha has hex

theorem labelAt?_makeSubtreeVisible (ts : List ITree) (p : List Nat) (r : List Nat) :
    labelAt? (makeSubtreeVisible ts p) r = labelAt? ts r := by
  cases hvp : forestGet? ts p with
  | none => rw [makeSubtreeVisible_invalid hvp]
  | some t =>
    by_cases hrp : r = p
    · subst hrp
      rw [labelAt?, forestGet?_makeSubtreeVisible_self hvp, labelAt?, hvp]; rfl
    · by_cases hext : ∃ s, r = p ++ s
      · obtain ⟨s, rfl⟩ := hext
        have hs : s ≠ [] := by rintro rfl; exact hrp (by simp)
        rw [labelAt?, forestGet?_makeSubtreeVisible_below hvp hs, ← labelAt?,
          label_markChildren s t.children, labelAt?, ← forestGet?_append p ts t s hvp hs,
          ← labelAt?]
      · exact (offpath_vis_label _ p ts r (fun s hcon => hext ⟨s, hcon⟩)).2

theorem visAt_makeSubtreeVisible_self {ts : List ITree} {p : List Nat} {t : ITree}
    (h : forestGet? ts p = some t) :
    visAt (makeSubtreeVisible ts p) p = visAt ts p := by
  rw [visAt, forestGet?_makeSubtreeVisible_self h, visAt, h]
  rfl

theorem visAt_makeSubtreeVisible_offpath (ts : List ITree) (p : List Nat) (r : List Nat)
    (hoff : ∀ s, r ≠ p ++ s) :
    visAt (makeSubtreeVisible ts p) r = visAt ts r :=
  (offpath_vis_label _ p ts r hoff).1

/-! ### `makePathVisible` characterization -/

theorem makePathVisible_nil (ts : List ITree) : makePathVisible ts [] = ts := rfl

theorem makePathVisible_cons (ts : List ITree) (i : Nat) (rest : List Nat) :
    makePathVisible ts (i :: rest)
      = makePathVisible (setVisAt ts (i :: rest) true) (i :: rest).dropLast := by
  show makePathVisibleAux (i :: rest).length ts (i :: rest)
      = makePathVisibleAux ((i :: rest).dropLast).length (setVisAt ts (i :: rest) true)
          (i :: rest).dropLast
  rw [show ((i :: rest).dropLast).length = rest.length by
    rw [List.length_dropLast]
    rfl]
  rfl

theorem labelAt?_makePathVisible :
    ∀ (n : Nat) (p : List Nat), p.length ≤ n → ∀ (ts : List ITree) (r : List Nat),
      labelAt? (makePathVisible ts p) r = labelAt? ts r := by
  intro n
  induction n with
  | zero =>
    intro p hp ts r
    match p, hp with
    | [], _ => rw [makePathVisible_nil]
  | succ n ih =>
    intro p hp ts r
    match p with
    | [] => rw [makePathVisible_nil]
    | i :: rest =>
      rw [makePathVisible_cons]
      rw [ih (i :: rest).dropLast (by
          simp only [List.length_dropLast, List.length_cons]
          simp only [List.length_cons] at hp
          omega)]
      exact labelAt?_setVisAt ts (i :: rest) true r

theorem validPath_makePathVisible (p : List Nat) (ts : List ITree) (r : List Nat) :
    validPath (makePathVisible ts p) r ↔ validPath ts r := by
  rw [validPath, validPath, ← labelAt?_isSome, ← labelAt?_isSome,
    labelAt?_makePathVisible p.length p le_rfl]

theorem visAt_makePathVisible :
    ∀ (n : Nat) (p : List Nat), p.length ≤ n → ∀ (ts : List ITree), validPath ts p →
      ∀ r, ((r ≠ [] ∧ ∃ s, r ++ s = p) → visAt (makePathVisible ts p) r = true)
        ∧ (¬(r ≠ [] ∧ ∃ s, r ++ s = p) → visAt (makePathVisible ts p) r = visAt ts r) := by
  intro n
  induction n with
  | zero =>
    intro p hp ts hvalid r
    match p, hp with
    | [], _ =>
      rw [validPath] at hvalid
      exact absurd hvalid (by simp [forestGet?])
  | succ n ih =>
    intro p hp ts hvalid r
    match p with
    | [] =>
      rw [validPath] at hvalid
      exact absurd hvalid (by simp [forestGet?])
    | i :: rest =>
      rw [makePathVisible_cons]
      have hsv := visAt_setVisAt ts (i :: rest) true hvalid
      match rest with
      | [] =>
        rw [show ([i] : List Nat).dropLast = [] from rfl, makePathVisible_nil]
        constructor
        · rintro ⟨hne, s, hs⟩
          have hr : r = [i] := by
            match r, hs with
            | [], _ => exact absurd rfl hne
            | x :: xs, hs =>
              have hx : x = i := by injection hs
              have hxs : xs ++ s = [] := by injection hs with _ h2
              have hxs' : xs = [] := by
                cases xs with
                | nil => rfl
                | cons _ _ => simp at hxs
              rw [hx, hxs']
          subst hr
          rw [hsv [i], if_pos rfl]
        · intro hnot
          have hr : r ≠ [i] := by
            rintro rfl
            exact hnot ⟨by simp, [], rfl⟩
          rw [hsv r, if_neg hr]
      | q :: qs =>
        have hdrop : (i :: q :: qs).dropLast = i :: (q :: qs).dropLast := rfl
        have hlast : (i :: (q :: qs).dropLast) ++ [(q :: qs).getLast (by simp)]
            = i :: q :: qs := by
          rw [show (i :: (q :: qs).dropLast) ++ [(q :: qs).getLast (by simp)]
              = i :: ((q :: qs).dropLast ++ [(q :: qs).getLast (by simp)]) from rfl,
            List.dropLast_append_getLast (by simp)]
        have hlen : (i :: (q :: qs).dropLast).length ≤ n := by
          simp only [List.length_cons, List.length_dropLast]
          simp only [List.length_cons] at hp
          omega
        have hvalid' : validPath (setVisAt ts (i :: q :: qs) true) (i :: (q :: qs).dropLast) := by
          have h1 : validPath ts (i :: (q :: qs).dropLast) := by
            refine validPath_of_append _ ts [(q :: qs).getLast (by simp)] ?_ (by simp)
            rw [hlast]
            exact hvalid
          rw [validPath, ← labelAt?_isSome, labelAt?_setVisAt, labelAt?_isSome]
          exact h1
        have ihp := ih (i :: (q :: qs).dropLast) hlen _ hvalid'
        constructor
        · rintro ⟨hne, s, hs⟩
          match s, hs with
          | [], hs =>
            have hr : r = i :: q :: qs := by simpa using hs
            subst hr
            refine ((ihp (i :: q :: qs)).2 ?_).trans ?_
            · rintro ⟨-, s', hs'⟩
              have hL : (i :: q :: qs).length + s'.length = (i :: (q :: qs).dropLast).length := by
                rw [← List.length_append, hs']
              simp only [List.length_cons, List.length_dropLast] at hL
              omega
            · rw [hsv (i :: q :: qs), if_pos rfl]
          | s0 :: ss, hs =>
            refine (ihp r).1 ⟨hne, (s0 :: ss).dropLast, ?_⟩
            have hstep : (r ++ s0 :: ss).dropLast = (i :: q :: qs).dropLast := by rw [hs]
            rw [List.dropLast_append_cons] at hstep
            rw [← hdrop]
            exact hstep
        · intro hnot
          have hnot' : ¬(r ≠ [] ∧ ∃ s', r ++ s' = i :: (q :: qs).dropLast) := by
            rintro ⟨hne, s', hs'⟩
            refine hnot ⟨hne, s' ++ [(q :: qs).getLast (by simp)], ?_⟩
            rw [← List.append_assoc, hs', hlast]
          have hrp : r ≠ i :: q :: qs := by
            rintro rfl
            exact hnot ⟨by simp, [], by simp⟩
          exact ((ihp r).2 hnot').trans (by rw [hsv r, if_neg hrp])

/-! ### `preorder` lemmas: the `foreach` visiting order -/

theorem sizeOf_children_lt (t : ITree) (ts : List ITree) :
    sizeOf t.children < sizeOf (t :: ts) := by
  cases t with
  | node l v cs =>
    simp only [ITree.children, List.cons.sizeOf_spec, ITree.node.sizeOf_spec]
    omega

theorem sizeOf_tail_lt (t : ITree) (ts : List ITree) : sizeOf ts < sizeOf (t :: ts) := by
  simp only [List.cons.sizeOf_spec]
  omega

theorem preorderT_eq (p : List Nat) (t : ITree) :
    preorderT p t = p :: preorderF p 0 t.children := by
  cases t
  rw [preorderT]
  rfl

theorem preorderF_cons (p : List Nat) (i : Nat) (t : ITree) (ts : List ITree) :
    preorderF p i (t :: ts) = preorderT (p ++ [i]) t ++ preorderF p (i + 1) ts := by
  rw [preorderF]

theorem validPath_cons_iff (cs : List ITree) (j : Nat) (u' : List Nat) :
    validPath cs (j :: u')
      ↔ ∃ t', cs[j]? = some t' ∧ (u' = [] ∨ validPath t'.children u') := by
  cases hgj : cs[j]? with
  | none =>
    rw [validPath, forestGet?_deep_none hgj]
    simp
  | some t' =>
    match u' with
    | [] =>
      rw [validPath, forestGet?_single, hgj]
      simp
    | w :: ws =>
      rw [validPath_deep hgj (by simp)]
      constructor
      · intro h; exact ⟨t', rfl, Or.inr h⟩
      · rintro ⟨t'', ht'', (h | h)⟩
        · cases h
        · injection ht'' with he; subst he; exact h

/-- Every row of the store is visited by the `foreach` pre-order traversal. -/
theorem preorderF_complete :
    ∀ (fuel : Nat) (ts : List ITree), sizeOf ts ≤ fuel →
      ∀ (p : List Nat) (i j : Nat) (t : ITree) (u : List Nat), ts[j]? = some t →
        (u = [] ∨ validPath t.children u) → (p ++ (i + j) :: u) ∈ preorderF p i ts := by
  intro fuel
  induction fuel with
  | zero =>
    intro ts hsz
    exfalso
    cases ts <;> simp [List.cons.sizeOf_spec] at hsz
  | succ n ih =>
    intro ts hsz p i j t u hget hval
    match ts with
    | [] => simp at hget
    | t0 :: rest =>
      rw [preorderF_cons]
      match j with
      | 0 =>
        have ht0 : t0 = t := by simpa using hget
        subst ht0
        refine List.mem_append.2 (Or.inl ?_)
        rw [preorderT_eq]
        rcases hval with rfl | hval
        · simp
        · match u with
          | w :: ws =>
            rw [validPath_cons_iff] at hval
            obtain ⟨t', hget', hval'⟩ := hval
            refine List.mem_cons_of_mem _ ?_
            have hmem := ih t0.children
              (by have := sizeOf_children_lt t0 rest; omega)
              (p ++ [i]) 0 w t' ws hget' hval'
            simpa using hmem
      | j' + 1 =>
        refine List.mem_append.2 (Or.inr ?_)
        have hget' : rest[j']? = some t := by simpa using hget
        have hmem := ih rest (by have := sizeOf_tail_lt t0 rest; omega)
          p (i + 1) j' t u hget' hval
        rw [show i + 1 + j' = i + (j' + 1) from by omega] at hmem
        exact hmem

/-- Shape of visited paths: everything in `preorderF p i ts` extends `p` by a
child index `≥ i`. -/
theorem preorderF_shape :
    ∀ (fuel : Nat) (ts : List ITree), sizeOf ts ≤ fuel →
      ∀ (p : List Nat) (i : Nat) (r : List Nat), r ∈ preorderF p i ts →
        ∃ k u, i ≤ k ∧ r = p ++ k :: u := by
  intro fuel
  induction fuel with
  | zero =>
    intro ts hsz
    exfalso
    cases ts <;> simp [List.cons.sizeOf_spec] at hsz
  | succ n ih =>
    intro ts hsz p i r hr
    match ts with
    | [] => simp [preorderF] at hr
    | t0 :: rest =>
      rw [preorderF_cons] at hr
      rcases List.mem_append.1 hr with hr | hr
      · rw [preorderT_eq] at hr
        rcases List.mem_cons.1 hr with rfl | hr
        · exact ⟨i, [], le_rfl, by simp⟩
        · obtain ⟨k', u', -, hshape⟩ := ih t0.children
            (by have := sizeOf_children_lt t0 rest; omega) (p ++ [i]) 0 r hr
          exact ⟨i, k' :: u', le_rfl, by simpa using hshape⟩
      · obtain ⟨k, u, hk, hshape⟩ := ih rest (by have := sizeOf_tail_lt t0 rest; omega)
          p (i + 1) r hr
        exact ⟨k, u, by omega, hshape⟩

/-- No path in the pre-order list is a strict descendant of a later one:
parents are always visited before their subtrees, siblings left to right. -/
theorem preorderF_pairwise :
    ∀ (fuel : Nat) (ts : List ITree), sizeOf ts ≤ fuel →
      ∀ (p : List Nat) (i : Nat),
        List.Pairwise (fun x y => ¬ ∃ s, s ≠ [] ∧ x = y ++ s) (preorderF p i ts) := by
  intro fuel
  induction fuel with
  | zero =>
    intro ts hsz
    exfalso
    cases ts <;> simp [List.cons.sizeOf_spec] at hsz
  | succ n ih =>
    intro ts hsz p i
    match ts with
    | [] => simp [preorderF]
    | t0 :: rest =>
      rw [preorderF_cons]
      rw [List.pairwise_append]
      refine ⟨?_, ih rest (by have := sizeOf_tail_lt t0 rest; omega) p (i + 1), ?_⟩
      · rw [preorderT_eq]
        rw [List.pairwise_cons]
        refine ⟨?_, ih t0.children (by have := sizeOf_children_lt t0 rest; omega) (p ++ [i]) 0⟩
        intro y hy
        obtain ⟨k, u, -, rfl⟩ := preorderF_shape n t0.children
          (by have := sizeOf_children_lt t0 rest; omega) (p ++ [i]) 0 y hy
        rintro ⟨s, hs, hcon⟩
        have hL : (p ++ [i]).length = ((p ++ [i]) ++ k :: u ++ s).length := by rw [← hcon]
        simp only [List.length_append, List.length_cons] at hL
        omega
      · intro x hx y hy
        have hx' : ∃ u₁, x = p ++ i :: u₁ := by
          rw [preorderT_eq] at hx
          rcases List.mem_cons.1 hx with rfl | hx
          · exact ⟨[], by simp⟩
          · obtain ⟨k, u, -, rfl⟩ := preorderF_shape n t0.children
              (by have := sizeOf_children_lt t0 rest; omega) (p ++ [i]) 0 x hx
            exact ⟨k :: u, by simp⟩
        obtain ⟨u₁, rfl⟩ := hx'
        obtain ⟨k₂, u₂, hk₂, rfl⟩ := preorderF_shape n rest
          (by have := sizeOf_tail_lt t0 rest; omega) p (i + 1) y hy
        rintro ⟨s, hs, hcon⟩
        rw [List.append_assoc] at hcon
        have := List.append_cancel_left hcon
        injection this with h1 _
        omega

/-! ### The match pass: invariant of the `foreach` fold -/

/-- The row at `m` exists and its label matches the search text. -/
def rowMatchesAt (q : String) (base : List ITree) (m : List Nat) : Prop :=
  ∃ t, forestGet? base m = some t ∧ rowMatches q t.label = true

/-- Why row `r` is visible: some matching row `m` has `r` on its ancestor
chain (including `r = m`), or `r` is a row strictly below `m`. -/
def ReasonAt (q : String) (base : List ITree) (r m : List Nat) : Prop :=
  rowMatchesAt q base m
    ∧ ((r ≠ [] ∧ ∃ s, r ++ s = m) ∨ (validPath base r ∧ ∃ s, s ≠ [] ∧ r = m ++ s))

theorem validPath_ne_nil {ts : List ITree} {p : List Nat} (h : validPath ts p) : p ≠ [] := by
  rintro rfl
  rw [validPath] at h
  simp [forestGet?] at h

theorem labelsEq_validPath {base acc : List ITree}
    (h : ∀ r, labelAt? acc r = labelAt? base r) (r : List Nat) :
    validPath acc r ↔ validPath base r := by
  rw [validPath, validPath, ← labelAt?_isSome, ← labelAt?_isSome, h]

theorem labelAt?_some_iff {ts : List ITree} {p : List Nat} {l : String} :
    labelAt? ts p = some l ↔ ∃ t, forestGet? ts p = some t ∧ t.label = l := by
  rw [labelAt?]
  cases forestGet? ts p with
  | none => simp
  | some t => simp

theorem exists_mem_append_singleton {α : Type _} {P : α → Prop} (l : List α) (a : α) :
    (∃ x ∈ l ++ [a], P x) ↔ (∃ x ∈ l, P x) ∨ P a := by
  constructor
  · rintro ⟨x, hx, hP⟩
    rcases List.mem_append.1 hx with h | h
    · exact Or.inl ⟨x, h, hP⟩
    · rw [List.mem_singleton] at h
      subst h
      exact Or.inr hP
  · rintro (⟨x, hx, hP⟩ | hP)
    · exact ⟨x, List.mem_append.2 (Or.inl hx), hP⟩
    · exact ⟨a, List.mem_append.2 (Or.inr (List.mem_singleton.2 rfl)), hP⟩

theorem append_eq_append_split :
    ∀ (a m x y : List Nat), a ++ x = m ++ y → (∃ w, a ++ w = m) ∨ (∃ w, m ++ w = a) := by
  intro a
  induction a with
  | nil => intro m x y _; exact Or.inl ⟨m, rfl⟩
  | cons i a' ih =>
    intro m x y h
    match m with
    | [] => exact Or.inr ⟨i :: a', rfl⟩
    | j :: m' =>
      have hij : i = j := by injection h
      subst hij
      have h' : a' ++ x = m' ++ y := by injection h with _ h2
      rcases ih m' x y h' with ⟨w, hw⟩ | ⟨w, hw⟩
      · exact Or.inl ⟨w, by rw [List.cons_append, hw]⟩
      · exact Or.inr ⟨w, by rw [List.cons_append, hw]⟩

/-- One visited row of the match pass preserves the invariant: afterwards a
row is visible exactly when some already-visited matching row explains it. -/
theorem showMatchesStep_spec (q : String) (base : List ITree) (processed : List (List Nat))
    (acc : List ITree) (m : List Nat)
    (hlab : ∀ r, labelAt? acc r = labelAt? base r)
    (hspec : ∀ r, visAt acc r = true ↔ ∃ m' ∈ processed, ReasonAt q base r m')
    (hord : ∀ m' ∈ processed, ¬ ∃ s, s ≠ [] ∧ m' = m ++ s) :
    (∀ r, labelAt? (showMatchesStep q acc m) r = labelAt? base r)
    ∧ (∀ r, visAt (showMatchesStep q acc m) r = true
        ↔ ∃ m' ∈ processed ++ [m], ReasonAt q base r m') := by
  cases hlm : labelAt? acc m with
  | none =>
    have hstep : showMatchesStep q acc m = acc := by rw [showMatchesStep, hlm]
    rw [hstep]
    have hnomatch : ¬ rowMatchesAt q base m := by
      rintro ⟨t, ht, -⟩
      rw [hlab m, labelAt?, ht] at hlm
      cases hlm
    refine ⟨hlab, fun r => ?_⟩
    rw [hspec r, exists_mem_append_singleton]
    constructor
    · exact Or.inl
    · rintro (h | ⟨hmm, -⟩)
      · exact h
      · exact absurd hmm hnomatch
  | some l =>
    by_cases hq : rowMatches q l = true
    · -- the interesting case: the row at m matches
      have hstep : showMatchesStep q acc m = makeSubtreeVisible (makePathVisible acc m) m := by
        simp only [showMatchesStep, hlm]
        rw [if_pos hq]
      have hvalacc : validPath acc m := by
        rw [validPath, ← labelAt?_isSome, hlm]; rfl
      have hvalbase : validPath base m := (labelsEq_validPath hlab m).1 hvalacc
      have hmne : m ≠ [] := validPath_ne_nil hvalacc
      have hmatchm : rowMatchesAt q base m := by
        rw [hlab m] at hlm
        obtain ⟨t, ht, hl⟩ := labelAt?_some_iff.1 hlm
        exact ⟨t, ht, hl ▸ hq⟩
      have hmidlab : ∀ r, labelAt? (makePathVisible acc m) r = labelAt? base r := by
        intro r
        rw [labelAt?_makePathVisible m.length m le_rfl, hlab r]
      have hmidvalid : validPath (makePathVisible acc m) m := by
        rw [validPath_makePathVisible]
        exact hvalacc
      obtain ⟨tmid, htmid⟩ : ∃ t, forestGet? (makePathVisible acc m) m = some t := by
        rw [validPath] at hmidvalid
        cases h : forestGet? (makePathVisible acc m) m
        · rw [h] at hmidvalid; cases hmidvalid
        · exact ⟨_, rfl⟩
      have hMP := visAt_makePathVisible m.length m le_rfl acc hvalacc
      have hlabfin : ∀ r, labelAt? (showMatchesStep q acc m) r = labelAt? base r := by
        intro r
        rw [hstep, labelAt?_makeSubtreeVisible, hmidlab r]
      refine ⟨hlabfin, fun r => ?_⟩
      rw [exists_mem_append_singleton]
      by_cases hr1 : r = m
      · subst hr1
        have hLHS : visAt (showMatchesStep q acc r) r = true := by
          rw [hstep, visAt_makeSubtreeVisible_self htmid]
          exact (hMP r).1 ⟨hmne, [], by simp⟩
        rw [hLHS]
        constructor
        · intro _
          exact Or.inr ⟨hmatchm, Or.inl ⟨hmne, [], by simp⟩⟩
        · intro _
          rfl
      · by_cases hr2 : ∃ s, s ≠ [] ∧ r = m ++ s
        · obtain ⟨s, hs, rfl⟩ := hr2
          have hbelow := visAt_makeSubtreeVisible_below htmid hs
          rw [hstep]
          rw [hbelow]
          have hmidvis : visAt (makePathVisible acc m) (m ++ s) = visAt acc (m ++ s) := by
            refine (hMP (m ++ s)).2 ?_
            rintro ⟨-, s', hs'⟩
            have hL : (m ++ s).length + s'.length = m.length := by
              rw [← List.length_append, hs']
            simp only [List.length_append] at hL
            have : s.length = 0 := by omega
            exact hs (List.length_eq_zero.1 this)
          have hmidchain : ∀ a, a ≠ [] →
              visAt (makePathVisible acc m) (m ++ a) = visAt acc (m ++ a) := by
            intro a ha
            refine (hMP (m ++ a)).2 ?_
            rintro ⟨-, s', hs'⟩
            have hL : (m ++ a).length + s'.length = m.length := by
              rw [← List.length_append, hs']
            simp only [List.length_append] at hL
            have : a.length = 0 := by omega
            exact ha (List.length_eq_zero.1 this)
          have hmidval : validPath (makePathVisible acc m) (m ++ s) ↔ validPath base (m ++ s) := by
            rw [validPath_makePathVisible]
            exact labelsEq_validPath hlab (m ++ s)
          rw [hmidvis]
          constructor
          · rintro (hv | ⟨hval, hchain⟩)
            · rcases (hspec (m ++ s)).1 hv with ⟨m', hm', hreason⟩
              exact Or.inl ⟨m', hm', hreason⟩
            · exact Or.inr ⟨hmatchm, Or.inr ⟨hmidval.1 hval, s, hs, rfl⟩⟩
          · rintro (⟨m', hm', hreason⟩ | ⟨-, hwhy⟩)
            · exact Or.inl ((hspec (m ++ s)).2 ⟨m', hm', hreason⟩)
            · rcases hwhy with ⟨hne, s', hs'⟩ | ⟨hval, s', hs', heq⟩
              · -- m ++ s a strict ancestor of m: impossible by length
                exfalso
                have hL : (m ++ s).length + s'.length = m.length := by
                  rw [← List.length_append, hs']
                simp only [List.length_append] at hL
                exact hs (List.length_eq_zero.1 (by omega))
              · -- r = m ++ s below m: visible unless blocked; a blocking row is
                -- already explained, and then r was already visible
                have heq' : s = s' := List.append_cancel_left heq
                by_cases hchain : ∀ a, a ≠ [] → a ≠ s → (∃ w, a ++ w = s) →
                    visAt acc (m ++ a) = false
                · refine Or.inr ⟨hmidval.2 hval, ?_⟩
                  intro a ha has hex
                  rw [hmidchain a ha]
                  exact hchain a ha has hex
                · push_neg at hchain
                  obtain ⟨a, ha, has, ⟨w, hw⟩, hvisa⟩ := hchain
                  simp only [ne_eq, Bool.not_eq_false] at hvisa
                  rcases (hspec (m ++ a)).1 hvisa with ⟨m'', hm'', hmm'', hwhy''⟩
                  rcases hwhy'' with ⟨-, s'', hs''⟩ | ⟨-, s'', hs'', heq''⟩
                  · -- m'' would be a strict descendant of m, visited earlier
                    exfalso
                    refine hord m'' hm'' ⟨a ++ s'', ?_, ?_⟩
                    · intro hcon
                      rcases List.append_eq_nil.1 hcon with ⟨rfl, -⟩
                      exact ha rfl
                    · rw [← hs'', List.append_assoc]
                  · -- m ++ a sits below m''; then so does r, already visible
                    refine Or.inl ((hspec (m ++ s)).2 ⟨m'', hm'', hmm'', Or.inr ⟨hval, s'' ++ w, ?_, ?_⟩⟩)
                    · intro hcon
                      rcases List.append_eq_nil.1 hcon with ⟨rfl, -⟩
                      exact hs'' rfl
                    · rw [← hw, ← List.append_assoc, heq'', List.append_assoc]
        · by_cases hr3 : r ≠ [] ∧ ∃ s, r ++ s = m
          · obtain ⟨hrne, s, hs⟩ := hr3
            have hsne : s ≠ [] := by
              rintro rfl
              exact hr1 (by simpa using hs)
            have hoff : ∀ s', r ≠ m ++ s' := by
              intro s' hcon
              have hL : r.length + s.length = m.length := by
                rw [← List.length_append, hs]
              have hL2 : r.length = m.length + s'.length := by
                rw [hcon, List.length_append]
              have hs0 : s.length = 0 := by omega
              exact hsne (List.length_eq_zero.1 hs0)
            have hLHS : visAt (showMatchesStep q acc m) r = true := by
              rw [hstep, visAt_makeSubtreeVisible_offpath _ _ _ hoff]
              exact (hMP r).1 ⟨hrne, s, hs⟩
            rw [hLHS]
            constructor
            · intro _
              exact Or.inr ⟨hmatchm, Or.inl ⟨hrne, s, hs⟩⟩
            · intro _
              rfl
          · -- r unrelated to m: visibility unchanged and m explains nothing
            have hoff : ∀ s', r ≠ m ++ s' := by
              intro s' hcon
              match s' with
              | [] => exact hr1 (by simpa using hcon)
              | w :: ws => exact hr2 ⟨w :: ws, by simp, hcon⟩
            have hLHS : visAt (showMatchesStep q acc m) r = visAt acc r := by
              rw [hstep, visAt_makeSubtreeVisible_offpath _ _ _ hoff]
              exact (hMP r).2 (fun hcon => hr3 ⟨hcon.1, hcon.2⟩)
            rw [hLHS, hspec r]
            constructor
            · exact Or.inl
            · rintro (h | ⟨-, hwhy⟩)
              · exact h
              · exfalso
                rcases hwhy with ⟨hrne, s, hs⟩ | ⟨-, s, hsne, heq⟩
                · exact hr3 ⟨hrne, s, hs⟩
                · exact hr2 ⟨s, hsne, heq⟩
    · -- visited row does not match: nothing changes
      have hstep : showMatchesStep q acc m = acc := by
        simp only [showMatchesStep, hlm]
        rw [if_neg hq]
      rw [hstep]
      have hnomatch : ¬ rowMatchesAt q base m := by
        rintro ⟨t, ht, hmt⟩
        rw [hlab m] at hlm
        obtain ⟨t', ht', hl'⟩ := labelAt?_some_iff.1 hlm
        rw [ht] at ht'
        injection ht' with he
        subst he
        exact hq (hl' ▸ hmt)
      refine ⟨hlab, fun r => ?_⟩
      rw [hspec r, exists_mem_append_singleton]
      constructor
      · exact Or.inl
      · rintro (h | ⟨hmm, -⟩)
        · exact h
        · exact absurd hmm hnomatch

theorem foldl_showMatches_spec (q : String) (base : List ITree) :
    ∀ (L processed : List (List Nat)) (acc : List ITree),
      (∀ r, labelAt? acc r = labelAt? base r) →
      (∀ r, visAt acc r = true ↔ ∃ m' ∈ processed, ReasonAt q base r m') →
      List.Pairwise (fun x y => ¬∃ s, s ≠ [] ∧ x = y ++ s) (processed ++ L) →
      (∀ r, labelAt? (L.foldl (showMatchesStep q) acc) r = labelAt? base r)
      ∧ (∀ r, visAt (L.foldl (showMatchesStep q) acc) r = true
          ↔ ∃ m' ∈ processed ++ L, ReasonAt q base r m') := by
  intro L
  induction L with
  | nil =>
    intro processed acc hlab hspec hpw
    simpa using ⟨hlab, hspec⟩
  | cons m L' ih =>
    intro processed acc hlab hspec hpw
    have hord : ∀ m' ∈ processed, ¬∃ s, s ≠ [] ∧ m' = m ++ s := by
      rw [List.pairwise_append] at hpw
      intro m' hm'
      exact hpw.2.2 m' hm' m (List.mem_cons_self m L')
    obtain ⟨hlab', hspec'⟩ := showMatchesStep_spec q base processed acc m hlab hspec hord
    have hEq : (processed ++ [m]) ++ L' = processed ++ m :: L' := by simp
    have hpw' : List.Pairwise (fun x y => ¬∃ s, s ≠ [] ∧ x = y ++ s)
        ((processed ++ [m]) ++ L') := by
      rw [hEq]
      exact hpw
    obtain ⟨hlabF, hspecF⟩ := ih (processed ++ [m]) (showMatchesStep q acc m) hlab' hspec' hpw'
    rw [hEq] at hspecF
    exact ⟨hlabF, hspecF⟩

theorem mem_preorder_of_valid {ts : List ITree} {m : List Nat} (h : validPath ts m) :
    m ∈ preorder ts := by
  match m with
  | [] => exact absurd rfl (validPath_ne_nil h)
  | j :: u =>
    rw [validPath_cons_iff] at h
    obtain ⟨t, hget, hval⟩ := h
    have hmem := preorderF_complete (sizeOf ts) ts le_rfl [] 0 j t u hget hval
    simpa [preorder] using hmem

theorem rowMatchesAt_setAllVisF (q : String) (ts : List ITree) (b : Bool) (m : List Nat) :
    rowMatchesAt q (setAllVisF b ts) m ↔ rowMatchesAt q ts m := by
  constructor
  · rintro ⟨t, ht, hmatch⟩
    rw [forestGet?_setAllVisF] at ht
    cases hget : forestGet? ts m with
    | none => rw [hget] at ht; cases ht
    | some t0 =>
      rw [hget] at ht
      injection ht with he
      refine ⟨t0, hget, ?_⟩
      rw [← (setAllVisT_parts b t0).1, he]
      exact hmatch
  · rintro ⟨t, ht, hmatch⟩
    refine ⟨setAllVisT b t, by rw [forestGet?_setAllVisF, ht]; rfl, ?_⟩
    rw [(setAllVisT_parts b t).1]
    exact hmatch

/-- Master characterization of `_filter__refresh_results` with non-empty
search text: a row is visible exactly when some matching row lies on its
ancestor chain (itself included) or strictly below it. -/
theorem refreshResults_char (q : String) (ts : List ITree) (hq : q ≠ "") (r : List Nat) :
    visAt (refreshResults q ts) r = true ↔ ∃ m, ReasonAt q ts r m := by
  have hrefresh : refreshResults q ts = showMatchesAll q (setAllVisF false ts) := by
    rw [refreshResults, if_neg hq]
  have hspec0 : ∀ r', visAt (setAllVisF false ts) r' = true
      ↔ ∃ m' ∈ ([] : List (List Nat)), ReasonAt q (setAllVisF false ts) r' m' := by
    intro r'
    rw [visAt_setAllVisF]
    constructor
    · intro h
      exfalso
      by_cases hval : validPath ts r'
      · rw [if_pos hval] at h; cases h
      · rw [if_neg hval] at h; cases h
    · rintro ⟨m', hm', -⟩
      simp at hm'
  have hpw : List.Pairwise (fun x y => ¬∃ s, s ≠ [] ∧ x = y ++ s)
      (([] : List (List Nat)) ++ preorder (setAllVisF false ts)) := by
    simpa [preorder] using
      preorderF_pairwise (sizeOf (setAllVisF false ts)) (setAllVisF false ts) le_rfl [] 0
  obtain ⟨-, hspecF⟩ := foldl_showMatches_spec q (setAllVisF false ts)
    (preorder (setAllVisF false ts)) [] (setAllVisF false ts) (fun _ => rfl) hspec0 hpw
  rw [hrefresh, showMatchesAll, hspecF r]
  constructor
  · rintro ⟨m, -, hmm, hwhy⟩
    refine ⟨m, (rowMatchesAt_setAllVisF q ts false m).1 hmm, ?_⟩
    rcases hwhy with h | ⟨hval, h⟩
    · exact Or.inl h
    · exact Or.inr ⟨(validPath_setAllVisF false ts r).1 hval, h⟩
  · rintro ⟨m, hmm, hwhy⟩
    have hvalm : validPath (setAllVisF false ts) m := by
      obtain ⟨t, ht, -⟩ := hmm
      rw [validPath_setAllVisF, validPath, ht]
      rfl
    refine ⟨m, by simpa using mem_preorder_of_valid hvalm,
      (rowMatchesAt_setAllVisF q ts false m).2 hmm, ?_⟩
    rcases hwhy with h | ⟨hval, h⟩
    · exact Or.inl h
    · exact Or.inr ⟨(validPath_setAllVisF false ts r).2 hval, h⟩

/-- Claim C2: after every run of `_filter__refresh_results` — any search text,
any item tree — every visible row has all of its ancestor rows visible. -/
theorem filter_ancestors_visible (q : String) (ts : List ITree) (p a : List Nat)
    (hvis : visAt (refreshResults q ts) p = true)
    (hane : a ≠ []) (hanc : ∃ s, a ++ s = p) (hnep : a ≠ p) :
    visAt (refreshResults q ts) a = true := by
  by_cases hq : q = ""
  · subst hq
    rw [refreshResults, if_pos rfl, visAt_setAllVisF] at hvis ⊢
    have hvalp : validPath ts p := by
      by_cases hval : validPath ts p
      · exact hval
      · rw [if_neg hval] at hvis; cases hvis
    obtain ⟨s, hs⟩ := hanc
    have hvala : validPath ts a := validPath_of_append a ts s (by rw [hs]; exact hvalp) hane
    rw [if_pos hvala]
  · rw [refreshResults_char q ts hq] at hvis ⊢
    obtain ⟨m, hmm, hwhy⟩ := hvis
    obtain ⟨s', hs'⟩ := hanc
    rcases hwhy with ⟨hpne, s, hs⟩ | ⟨hvalp, s, hsne, heq⟩
    · exact ⟨m, hmm, Or.inl ⟨hane, s' ++ s, by rw [← List.append_assoc, hs', hs]⟩⟩
    · have hsplit := append_eq_append_split a m s' s (by rw [hs', heq])
      rcases hsplit with ⟨w, hw⟩ | ⟨w, hw⟩
      · exact ⟨m, hmm, Or.inl ⟨hane, w, hw⟩⟩
      · match w, hw with
        | [], hw => exact ⟨m, hmm, Or.inl ⟨hane, [], by simp [← hw]⟩⟩
        | w0 :: ws, hw =>
          have hvala : validPath ts a :=
            validPath_of_append a ts s' (by rw [hs']; exact (heq ▸ hvalp)) hane
          exact ⟨m, hmm, Or.inr ⟨hvala, w0 :: ws, by simp, hw.symm⟩⟩

/-- Witness for C2: on a concrete two-level tree where only the leaf matches,
the root (its ancestor) ends up visible. -/
theorem filter_ancestors_visible_witness :
    visAt (refreshResults "b" [ITree.node "a" false [ITree.node "b" false []]]) [0] = true :=
  filter_ancestors_visible "b" [ITree.node "a" false [ITree.node "b" false []]] [0, 0] [0]
    (by decide) (by decide) ⟨[0], rfl⟩ (by decide)

/-- Claim C3: with empty search text every row is visible; with non-empty
search text a row is visible iff its label matches the search text
case-insensitively, or some ancestor row matches, or some descendant row
matches. -/
theorem filter_visibility_iff (q : String) (ts : List ITree) (r : List Nat)
    (hv : validPath ts r) :
    (q = "" → visAt (refreshResults q ts) r = true)
    ∧ (q ≠ "" → (visAt (refreshResults q ts) r = true ↔
        rowMatchesAt q ts r
        ∨ (∃ a, a ≠ [] ∧ a ≠ r ∧ (∃ s, a ++ s = r) ∧ rowMatchesAt q ts a)
        ∨ (∃ d, d ≠ r ∧ (∃ s, r ++ s = d) ∧ rowMatchesAt q ts d))) := by
  constructor
  · rintro rfl
    rw [refreshResults, if_pos rfl, visAt_setAllVisF, if_pos hv]
  · intro hq
    rw [refreshResults_char q ts hq]
    constructor
    · rintro ⟨m, hmm, hwhy⟩
      rcases hwhy with ⟨hrne, s, hs⟩ | ⟨hvalr, s, hsne, heq⟩
      · match s, hs with
        | [], hs => exact Or.inl (by rw [show r = m by simpa using hs]; exact hmm)
        | s0 :: ss, hs =>
          refine Or.inr (Or.inr ⟨m, ?_, ⟨s0 :: ss, hs⟩, hmm⟩)
          intro hcon
          rw [hcon] at hs
          have hL : r.length + (s0 :: ss).length = r.length := by
            rw [← List.length_append, hs]
          simp at hL
      · refine Or.inr (Or.inl ⟨m, ?_, ?_, ⟨s, heq.symm⟩, hmm⟩)
        · obtain ⟨t, ht, -⟩ := hmm
          exact validPath_ne_nil (show validPath ts m by rw [validPath, ht]; rfl)
        · intro hcon
          rw [← hcon] at heq
          have hL : m.length + s.length = m.length := by
            rw [← List.length_append, ← heq]
          rw [Nat.add_right_eq_self] at hL
          exact hsne (List.length_eq_zero.1 hL)
    · rintro (hself | ⟨a, hane, haner, ⟨s, hs⟩, hmm⟩ | ⟨d, hdner, ⟨s, hs⟩, hmm⟩)
      · exact ⟨r, hself, Or.inl ⟨validPath_ne_nil hv, [], by simp⟩⟩
      · refine ⟨a, hmm, Or.inr ⟨hv, s, ?_, hs.symm⟩⟩
        rintro rfl
        exact haner (by simpa using hs)
      · exact ⟨d, hmm, Or.inl ⟨validPath_ne_nil hv, s, hs⟩⟩

/-- Witness for C3: the characterization applied to the root of a concrete
tree, whose only match is the leaf below it. -/
theorem filter_visibility_iff_witness :
    (("b" : String) = "" →
      visAt (refreshResults "b" [ITree.node "a" false [ITree.node "b" false []]]) [0] = true)
    ∧ (("b" : String) ≠ "" →
      (visAt (refreshResults "b" [ITree.node "a" false [ITree.node "b" false []]]) [0] = true ↔
        rowMatchesAt "b" [ITree.node "a" false [ITree.node "b" false []]] [0]
        ∨ (∃ a, a ≠ [] ∧ a ≠ [0] ∧ (∃ s, a ++ s = [0])
            ∧ rowMatchesAt "b" [ITree.node "a" false [ITree.node "b" false []]] a)
        ∨ (∃ d, d ≠ [0] ∧ (∃ s, [0] ++ s = d)
            ∧ rowMatchesAt "b" [ITree.node "a" false [ITree.node "b" false []]] d))) :=
  filter_visibility_iff "b" [ITree.node "a" false [ITree.node "b" false []]] [0] (by decide)

end SkyTemple
